import Mathlib

/-!
Verification of the orderedmap library (src/orderedmap.go): an
insertion-order-preserving map built from a hash index over a doubly
linked node sequence, with a JSON codec that preserves member order.

Modelling conventions.
The doubly linked sequence of nodes (head to tail, fields prev and next)
is represented by the list of its entries in head-to-tail order; a node
is the pair of its key and value, link pointers are represented by list
adjacency, head is the first list element and tail the last.  The Go
hash index (the values field, a map from key to node pointer) is
represented by the list of keys it holds; the value stored at a key is
read through the sequence, which under the structural invariant carries
the same association.  The stored size counter and the cached
isKeyString flag are modelled as plain fields.  The sync.Pool of retired
nodes only recycles allocations and has no observable effect on the
container contents, so it is not represented.  The goccy/go-json
streaming decoder is modelled at its token interface: an input document
is a list of JSON tokens, Token consumes the head token (failing at end
of input), More reports whether the head token exists and is not a
closing delimiter, and Decode of a raw value is a recursive token
parser.  Scalar text encoding (string escaping, number formatting) is
delegated to the library in the source and is below the token level
here.
-/

/-- JSON values, the domain of the delegated value codec.  Numbers are
modelled as integers; their text representation is delegated in the
source and irrelevant to the order-preservation properties. -/
inductive Json where
  | null : Json
  | bool (b : Bool) : Json
  | num (n : Int) : Json
  | str (s : String) : Json
  | arr (elems : List Json) : Json
  | obj (fields : List (String × Json)) : Json
deriving Repr

/-- JSON tokens as produced by the goccy/go-json Decoder Token method:
delimiters and primitive values. -/
inductive JTok where
  | objOpen | objClose | arrOpen | arrClose
  | str (s : String)
  | num (n : Int)
  | bool (b : Bool)
  | null
deriving DecidableEq, Repr

mutual

/-- Token stream of a JSON value (the output of the delegated encoder
and the input shape of the streaming decoder). -/
def tokensOf : Json → List JTok
  | .null => [.null]
  | .bool b => [.bool b]
  | .num n => [.num n]
  | .str s => [.str s]
  | .arr es => .arrOpen :: elemsTokens es ++ [.arrClose]
  | .obj fs => .objOpen :: fieldsTokens fs ++ [.objClose]

/-- Token stream of consecutive array elements. -/
def elemsTokens : List Json → List JTok
  | [] => []
  | v :: vs => tokensOf v ++ elemsTokens vs

/-- Token stream of consecutive object members: each member is a string
key token followed by the value tokens. -/
def fieldsTokens : List (String × Json) → List JTok
  | [] => []
  | (k, v) :: fs => .str k :: tokensOf v ++ fieldsTokens fs

end

mutual

/-- Fuel bound sufficient for the recursive token parser on a value. -/
def sizeV : Json → Nat
  | .null => 1
  | .bool _ => 1
  | .num _ => 1
  | .str _ => 1
  | .arr es => 1 + sizeL es
  | .obj fs => 1 + sizeF fs

/-- Fuel bound for parsing a list of array elements up to the closing
delimiter. -/
def sizeL : List Json → Nat
  | [] => 1
  | v :: vs => 1 + sizeV v + sizeL vs

/-- Fuel bound for parsing a list of object members up to the closing
delimiter. -/
def sizeF : List (String × Json) → Nat
  | [] => 1
  | (_, v) :: fs => 1 + sizeV v + sizeF fs

end

/-- Error conditions of the container and its codec, mirroring the
distinct error returns in src/orderedmap.go: errKeyNotFound (line 13),
errKeyMustBeStringForJson (line 14), and the four fmt.Errorf sites of
UnmarshalJSON (opening token read, non-string key token, value decode,
closing token read). -/
inductive OMError where
  | keyNotFound
  | keyMustBeString
  | readOpenTok
  | nonStringKey
  | valueDecode
  | readCloseTok
deriving DecidableEq, Repr

/-- The container state (struct orderedMap, src/orderedmap.go lines
23-30): entries is the doubly linked node sequence in head-to-tail
order, index is the key set of the values hash map, size the stored
element counter, isKeyString the key-type flag cached at construction.
The node pool is not observable and not represented. -/
structure OrderedMap (K V : Type) where
  entries : List (K × V)
  index : List K
  size : Nat
  isKeyString : Bool
deriving Repr

namespace OrderedMap

variable {K V : Type} [DecidableEq K]

/-- NewWithCapacity (lines 36-48): empty sequence, empty index, size 0;
the isStr argument models the reflect-based isKeyString computation on
the zero value of K, true exactly when K is the Go string type.  The
capacity only pre-allocates and is not observable. -/
def new (isStr : Bool) : OrderedMap K V :=
  { entries := [], index := [], size := 0, isKeyString := isStr }

/-- Replace the value stored at the first node whose key matches,
leaving every link untouched: the in-place update of Set on an existing
node (line 52). -/
def setValue : List (K × V) → K → V → List (K × V)
  | [], _, _ => []
  | e :: rest, k, v => if e.1 = k then (k, v) :: rest else e :: setValue rest k v

/-- Set (lines 50-72): if the key is in the hash index, overwrite the
node value in place and return; otherwise link a fresh node after the
tail, register the key in the index and increment size. -/
def Set (m : OrderedMap K V) (k : K) (v : V) : OrderedMap K V :=
  if k ∈ m.index then
    { m with entries := setValue m.entries k v }
  else
    { m with entries := m.entries ++ [(k, v)], index := k :: m.index,
             size := m.size + 1 }

/-- Remove the first node whose key matches, splicing its neighbours
together: the unlink step of Delete. -/
def eraseEntry : List (K × V) → K → List (K × V)
  | [], _ => []
  | e :: rest, k => if e.1 = k then rest else e :: eraseEntry rest k

/-- Delete (lines 90-108): no-op when the key is not in the hash index;
otherwise unlink the node from the sequence, remove the index entry and
decrement size.  The retired node goes back to the pool, which is not
observable. -/
def Delete (m : OrderedMap K V) (k : K) : OrderedMap K V :=
  if k ∈ m.index then
    { m with entries := eraseEntry m.entries k, index := m.index.erase k,
             size := m.size - 1 }
  else m

/-- Get (lines 74-80): hash lookup returning the node value, or the
key-not-found error.  Under the structural invariant the sequence holds
exactly the association of the hash index, so the lookup is read
through the sequence. -/
def Get (m : OrderedMap K V) (k : K) : Except OMError V :=
  match m.entries.find? (fun e => e.1 = k) with
  | some e => .ok e.2
  | none => .error .keyNotFound

/-- GetOrDefault (lines 82-88): like Get but yielding the zero value of
V when absent, modelled with Option (none stands for the zero value). -/
def GetOrDefault (m : OrderedMap K V) (k : K) : Option V :=
  (m.entries.find? (fun e => e.1 = k)).map (fun e => e.2)

/-- Keys (lines 136-144): the key of every node from head to tail. -/
def Keys (m : OrderedMap K V) : List K :=
  m.entries.map Prod.fst

/-- Values (lines 146-154): the value of every node from head to
tail. -/
def Values (m : OrderedMap K V) : List V :=
  m.entries.map Prod.snd

/-- Len (lines 345-347): the stored size counter. -/
def Len (m : OrderedMap K V) : Nat :=
  m.size

/-- IsEmpty (lines 349-351). -/
def IsEmpty (m : OrderedMap K V) : Bool :=
  m.size = 0

/-- ContainsKey (lines 163-166): hash index membership. -/
def ContainsKey (m : OrderedMap K V) (k : K) : Bool :=
  k ∈ m.index

/-- The scanning loop of IndexOf: walk the sequence keeping a position
counter. -/
def indexOfAux : List (K × V) → K → Nat → Int
  | [], _, _ => -1
  | e :: rest, k, i => if e.1 = k then (i : Int) else indexOfAux rest k (i + 1)

/-- IndexOf (lines 183-192): linear scan from head counting positions,
minus one when the key is absent. -/
def IndexOf (m : OrderedMap K V) (k : K) : Int :=
  indexOfAux m.entries k 0

/-- Clear (lines 122-134): retire every node, reset head, tail, the
hash map and size. -/
def Clear (m : OrderedMap K V) : OrderedMap K V :=
  { m with entries := [], index := [], size := 0 }

/-- Reverse (lines 156-161): swap head and tail and flip the direction
of every link, which reverses the head-to-tail sequence; index and size
are untouched. -/
def Reverse (m : OrderedMap K V) : OrderedMap K V :=
  { m with entries := m.entries.reverse }

/-- Pop (lines 194-202): read the value through the hash index, then
Delete; yields none (the zero value with found false) when absent. -/
def Pop (m : OrderedMap K V) (k : K) : Option V × OrderedMap K V :=
  if k ∈ m.index then
    ((m.entries.find? (fun e => e.1 = k)).map (fun e => e.2), m.Delete k)
  else (none, m)

/-- Fold a list of key-value pairs through Set, the shape shared by
Clone (lines 204-210), Merge (lines 212-216) and the decode loop. -/
def applyOps (m : OrderedMap K V) (ops : List (K × V)) : OrderedMap K V :=
  ops.foldl (fun acc e => acc.Set e.1 e.2) m

/-- Clone (lines 204-210): a fresh container built by Set over the
source sequence.  The fresh container computes its key-type flag from
the same K, hence it equals the source flag. -/
def Clone (m : OrderedMap K V) : OrderedMap K V :=
  applyOps (new m.isKeyString) m.entries

/-- Merge (lines 212-216): Set every entry of the other container in
its head-to-tail order. -/
def Merge (m : OrderedMap K V) (other : OrderedMap K V) : OrderedMap K V :=
  applyOps m other.entries

/-- validateKey (lines 370-375): the cached key-type flag gates every
serialization and key-sort operation. -/
def validateKey (m : OrderedMap K V) : Option OMError :=
  if m.isKeyString then none else some .keyMustBeString

/-- Insert a key into a list sorted by the strict comparison les,
placing it before the first element it compares less than. -/
def sortedInsert (les : K → K → Bool) (k : K) : List K → List K
  | [] => [k]
  | x :: xs => if les k x then k :: x :: xs else x :: sortedInsert les k xs

/-- Sorting of the key slice, modelling sort.SliceStable (line 235).
Stability is irrelevant here because under the structural invariant the
keys are pairwise distinct. -/
def sortBy (les : K → K → Bool) (l : List K) : List K :=
  l.foldr (sortedInsert les) []

/-- rebuildFromKeys (lines 242-260): reset head, tail and size, then
for each key found in the hash index append its node and increment
size; the hash index itself is untouched. -/
def rebuildFromKeys (m : OrderedMap K V) (keys : List K) : OrderedMap K V :=
  let es := keys.filterMap (fun k =>
    if k ∈ m.index then
      (m.entries.find? (fun e => e.1 = k)).map (fun e => (k, e.2))
    else none)
  { m with entries := es, size := es.length }

/-- sortKeys (lines 230-240): fail fast on the cached key-type check,
otherwise sort the key slice and rebuild the sequence linkage; the pair
carries the (possibly unchanged) container together with the error. -/
def sortKeys (m : OrderedMap K V) (les : K → K → Bool) :
    OrderedMap K V × Option OMError :=
  match m.validateKey with
  | some err => (m, some err)
  | none => (m.rebuildFromKeys (sortBy les m.Keys), none)

end OrderedMap

/-- SortAsc (lines 218-222): sortKeys with the ascending string
comparison; the cast of keys to string is safe because validateKey has
passed, so this is stated at key type String. -/
def SortAsc {V : Type} (m : OrderedMap String V) :
    OrderedMap String V × Option OMError :=
  m.sortKeys (fun a b => decide (a < b))

/-- SortDesc (lines 224-228): sortKeys with the descending string
comparison. -/
def SortDesc {V : Type} (m : OrderedMap String V) :
    OrderedMap String V × Option OMError :=
  m.sortKeys (fun a b => decide (b < a))

/-- MarshalJSON (lines 262-290): after the key-type check, an opening
delimiter, then for every node the string key token and the delegated
encoding of the value, then the closing delimiter.  Comma and colon
separators are below the token level. -/
def MarshalJSON (m : OrderedMap String Json) : Except OMError (List JTok) :=
  match m.validateKey with
  | some err => .error err
  | none => .ok (.objOpen :: fieldsTokens m.entries ++ [.objClose])

/-- More, the goccy Decoder More method: whether the next token exists
and is not a closing delimiter. -/
def More : List JTok → Bool
  | [] => false
  | t :: _ => t ≠ .objClose ∧ t ≠ .arrClose

mutual

/-- The delegated recursive value parser behind dec.Decode (line 320)
and json.Unmarshal (line 332): consume one complete JSON value from the
token stream.  Fuel drives the recursion; every call site passes enough
fuel for any value that fits in the stream. -/
def parseVal : Nat → List JTok → Option (Json × List JTok)
  | 0, _ => none
  | _ + 1, [] => none
  | _ + 1, .null :: r => some (.null, r)
  | _ + 1, .bool b :: r => some (.bool b, r)
  | _ + 1, .num n :: r => some (.num n, r)
  | _ + 1, .str s :: r => some (.str s, r)
  | f + 1, .arrOpen :: r =>
    (parseElems f r).map (fun p => (.arr p.1, p.2))
  | f + 1, .objOpen :: r =>
    (parseFields f r).map (fun p => (.obj p.1, p.2))
  | _ + 1, .arrClose :: _ => none
  | _ + 1, .objClose :: _ => none

/-- Parse array elements up to the closing delimiter. -/
def parseElems : Nat → List JTok → Option (List Json × List JTok)
  | 0, _ => none
  | _ + 1, [] => none
  | f + 1, t :: r =>
    if t = .arrClose then some ([], r)
    else do
      let (v, r1) ← parseVal f (t :: r)
      let (vs, r2) ← parseElems f r1
      some (v :: vs, r2)

/-- Parse object members up to the closing delimiter; a member name
that is not a string token is a syntax error of the delegated
decoder. -/
def parseFields : Nat → List JTok → Option (List (String × Json) × List JTok)
  | 0, _ => none
  | _ + 1, [] => none
  | f + 1, t :: r =>
    if t = .objClose then some ([], r)
    else
      match t with
      | .str k => do
        let (v, r1) ← parseVal f r
        let (fs, r2) ← parseFields f r1
        some ((k, v) :: fs, r2)
      | _ => none

end

/-- The member loop of UnmarshalJSON (lines 307-337): while More, read
the next token, require it to be a string key, decode one raw value via
the delegated parser and apply Set; exit without error when More turns
false.  The triple is the accumulated container, the unconsumed stream
and the error, mirroring the mutation of the receiver and the early
returns.  Fuel counts loop iterations; every successful iteration
consumes at least two tokens, so the initial stream length is always
enough, and the fuel-exhausted branch is unreachable from the real
entry point.  The nested-container special case of the source (lines
324-335) is order-preserving decoding of an object value, which is what
parseVal does on obj tokens, so both branches of the source are the
same parser here. -/
def decodeMembers :
    Nat → OrderedMap String Json → List JTok →
    OrderedMap String Json × List JTok × Option OMError
  | 0, m, ts => (m, ts, some .valueDecode)
  | _ + 1, m, [] => (m, [], none)
  | fuel + 1, m, t :: r =>
    if More (t :: r) then
      match t with
      | .str k =>
        match parseVal (2 * r.length + 2) r with
        | some (v, r1) => decodeMembers fuel (m.Set k v) r1
        | none => (m, r, some .valueDecode)
      | _ => (m, t :: r, some .nonStringKey)
    else (m, t :: r, none)

/-- UnmarshalJSON (lines 292-343): fail fast on the cached key-type
check leaving the container untouched; on the null literal clear and
succeed; otherwise clear, consume one opening token (of whatever kind,
only its presence is checked), run the member loop, and finally consume
one closing token (again only its presence is checked).  The returned
pair is the final container state and the error. -/
def UnmarshalJSON (m : OrderedMap String Json) (data : List JTok) :
    OrderedMap String Json × Option OMError :=
  match m.validateKey with
  | some err => (m, some err)
  | none =>
    if data = [.null] then (m.Clear, none)
    else
      match data with
      | [] => (m.Clear, some .readOpenTok)
      | _ :: rest =>
        match decodeMembers (rest.length + 1) m.Clear rest with
        | (m1, _, some err) => (m1, some err)
        | (m1, ts, none) =>
          match ts with
          | [] => (m1, some .readCloseTok)
          | _ :: _ => (m1, none)

/-- Modelled from the spec: the pairs decoded before the point of
failure (or all pairs, on success), following the words of the decode
failure contract.  Same loop structure as decodeMembers with the
container dropped; used to state what UnmarshalJSON leaves behind. -/
def decodedPairs : Nat → List JTok → List (String × Json)
  | 0, _ => []
  | _ + 1, [] => []
  | fuel + 1, t :: r =>
    if More (t :: r) then
      match t with
      | .str k =>
        match parseVal (2 * r.length + 2) r with
        | some (v, r1) => (k, v) :: decodedPairs fuel r1
        | none => []
      | _ => []
    else []

/-- Modelled from the spec: the order in which each key of a Set
sequence was first inserted, following the words of the order
preservation property. -/
def insertionOrder {K : Type} [DecidableEq K] (ks : List K) : List K :=
  ks.foldl (fun acc k => if k ∈ acc then acc else acc ++ [k]) []

/-- Array element lists the decoder accepts as if they were object
members: alternating string keys and values.  Used to characterize
which non-object inputs UnmarshalJSON accepts. -/
def altPairs : List Json → Option (List (String × Json))
  | [] => some []
  | .str k :: v :: rest => (altPairs rest).map (fun ps => (k, v) :: ps)
  | _ => none

namespace OrderedMap

variable {K V : Type} [DecidableEq K]

/-- Structural well-formedness tying the three views together: the
stored size matches the hash index cardinality and the linked sequence
length, the sequence keys are exactly the index keys, and keys are
pairwise distinct.  Every container reachable through the public
operations satisfies it. -/
def WF (m : OrderedMap K V) : Prop :=
  m.size = m.index.length ∧ m.size = m.entries.length ∧
  (m.entries.map Prod.fst).Perm m.index ∧ (m.entries.map Prod.fst).Nodup

instance (m : OrderedMap K V) : Decidable (m.WF) := by
  unfold WF; infer_instance

/-- The invariant as the claim states it: size equals index count
equals sequence length, and the sequence endpoints are absent exactly
when size is zero.  In this representation head is the first list
element and tail the last, so head having no predecessor and tail no
successor is intrinsic. -/
def Invariant (m : OrderedMap K V) : Prop :=
  m.size = m.index.length ∧ m.size = m.entries.length ∧
  (m.entries.head?.isNone ↔ m.size = 0) ∧
  (m.entries.getLast?.isNone ↔ m.size = 0)

instance (m : OrderedMap K V) : Decidable (m.Invariant) := by
  unfold Invariant; infer_instance

end OrderedMap

namespace OrderedMap

variable {K V : Type} [DecidableEq K]

theorem setValue_map_fst (l : List (K × V)) (k : K) (v : V) :
    (setValue l k v).map Prod.fst = l.map Prod.fst := by
  induction l with
  | nil => rfl
  | cons e rest ih =>
    by_cases h : e.1 = k
    · simp [setValue, h]
    · simp [setValue, h, ih]

theorem setValue_length (l : List (K × V)) (k : K) (v : V) :
    (setValue l k v).length = l.length := by
  have h := congrArg List.length (setValue_map_fst l k v)
  simpa using h

theorem eraseEntry_map_fst (l : List (K × V)) (k : K) :
    (eraseEntry l k).map Prod.fst = (l.map Prod.fst).erase k := by
  induction l with
  | nil => rfl
  | cons e rest ih =>
    by_cases h : e.1 = k
    · simp [eraseEntry, h, List.erase_cons]
    · have h2 : ¬ e.1 == k := by simpa using h
      simp [eraseEntry, h, List.erase_cons, h2, ih]

theorem mem_keys_iff_index (m : OrderedMap K V) (hm : m.WF) (k : K) :
    k ∈ m.Keys ↔ k ∈ m.index := by
  have hp := hm.2.2.1
  exact ⟨fun h => hp.mem_iff.mp h, fun h => hp.mem_iff.mpr h⟩

theorem wf_new (isStr : Bool) : (new isStr : OrderedMap K V).WF := by
  simp [new, WF]

theorem wf_set (m : OrderedMap K V) (hm : m.WF) (k : K) (v : V) :
    (m.Set k v).WF := by
  obtain ⟨h1, h2, h3, h4⟩ := hm
  by_cases h : k ∈ m.index
  · simp only [Set, h, if_pos]
    refine ⟨h1, ?_, ?_, ?_⟩
    · simpa [setValue_length] using h2
    · simpa [setValue_map_fst] using h3
    · simpa [setValue_map_fst] using h4
  · simp only [Set, h, if_neg, not_false_iff]
    have hk : k ∉ m.entries.map Prod.fst := by
      intro hmem
      exact h (h3.mem_iff.mp hmem)
    refine ⟨by simpa using h1, by simpa using h2, ?_, ?_⟩
    · simpa using (List.perm_append_singleton k _).trans (h3.cons k)
    · have hnd : (m.entries.map Prod.fst ++ [k]).Nodup := by
        rw [List.nodup_append]
        refine ⟨h4, List.nodup_singleton k, ?_⟩
        intro a ha hb
        rw [List.mem_singleton] at hb
        subst hb
        exact hk ha
      simpa using hnd

theorem keys_set (m : OrderedMap K V) (hm : m.WF) (k : K) (v : V) :
    (m.Set k v).Keys = if k ∈ m.Keys then m.Keys else m.Keys ++ [k] := by
  by_cases h : k ∈ m.index
  · have hk : k ∈ m.entries.map Prod.fst := hm.2.2.1.mem_iff.mpr h
    simp [Set, h, Keys, setValue_map_fst, hk]
  · have hk : k ∉ m.entries.map Prod.fst := fun hc => h (hm.2.2.1.mem_iff.mp hc)
    simp [Set, h, Keys, hk]

theorem size_set_mem (m : OrderedMap K V) (k : K) (v : V) (h : k ∈ m.index) :
    (m.Set k v).size = m.size := by
  simp [Set, h]

theorem isKeyString_set (m : OrderedMap K V) (k : K) (v : V) :
    (m.Set k v).isKeyString = m.isKeyString := by
  by_cases h : k ∈ m.index <;> simp [Set, h]

theorem find?_key_isSome (l : List (K × V)) (k : K) :
    (l.find? (fun e => e.1 = k)).isSome ↔ k ∈ l.map Prod.fst := by
  induction l with
  | nil => simp
  | cons e rest ih =>
    by_cases he : e.1 = k
    · simp [List.find?_cons, he]
    · have he2 : ¬ (decide (e.1 = k) = true) := by simpa using he
      simp only [List.find?_cons, he2, if_neg, List.map_cons, List.mem_cons]
      simpa [ih] using fun hc => absurd hc.symm he

theorem find?_key_append (l1 l2 : List (K × V)) (k : K) :
    ((l1 ++ l2).find? (fun e => e.1 = k)) =
      ((l1.find? (fun e => e.1 = k)).orElse (fun _ => l2.find? (fun e => e.1 = k))) := by
  induction l1 with
  | nil => simp
  | cons e rest ih =>
    by_cases he : decide (e.1 = k) = true
    · simp [List.find?_cons, he]
    · simp [List.find?_cons, he, ih]

theorem setValue_find? (l : List (K × V)) (k : K) (v : V) :
    (setValue l k v).find? (fun e => e.1 = k) =
      ((l.find? (fun e => e.1 = k)).map (fun _ => (k, v))) := by
  induction l with
  | nil => rfl
  | cons e rest ih =>
    by_cases he : e.1 = k
    · simp [setValue, he, List.find?_cons]
    · have he2 : ¬ (decide (e.1 = k) = true) := by simpa using he
      simp [setValue, he, List.find?_cons, he2, ih]

theorem get_set_self (m : OrderedMap K V) (hm : m.WF) (k : K) (v : V) :
    (m.Set k v).Get k = .ok v := by
  by_cases h : k ∈ m.index
  · have hk : k ∈ m.entries.map Prod.fst := hm.2.2.1.mem_iff.mpr h
    have hs : (m.entries.find? (fun e => e.1 = k)).isSome :=
      (find?_key_isSome m.entries k).mpr hk
    simp only [Set, h, if_pos, Get, setValue_find?]
    cases hf : m.entries.find? (fun e => e.1 = k) with
    | some e => simp
    | none => rw [hf] at hs; simp at hs
  · have hk : k ∉ m.entries.map Prod.fst := fun hc => h (hm.2.2.1.mem_iff.mp hc)
    have hn : m.entries.find? (fun e => e.1 = k) = none := by
      cases hf : m.entries.find? (fun e => e.1 = k) with
      | none => rfl
      | some e =>
        have : (m.entries.find? (fun e => e.1 = k)).isSome := by rw [hf]; rfl
        exact absurd ((find?_key_isSome m.entries k).mp this) hk
    simp [Set, h, Get, find?_key_append, hn, List.find?_cons]

theorem get_set_other (m : OrderedMap K V) (k k2 : K) (v : V) (hne : k2 ≠ k) :
    (m.Set k v).Get k2 = m.Get k2 := by
  have hsv : ∀ l : List (K × V), (setValue l k v).find? (fun e => e.1 = k2) =
      l.find? (fun e => e.1 = k2) := by
    intro l
    induction l with
    | nil => rfl
    | cons e rest ih =>
      by_cases he : e.1 = k
      · have he1 : ¬ (decide ((k : K) = k2) = true) := by
          simpa using fun hc => hne hc.symm
        have he2 : ¬ (decide (e.1 = k2) = true) := by
          simp only [decide_eq_true_eq]
          rw [he]
          exact fun hc => hne hc.symm
        simp [setValue, he, List.find?_cons, he1, he2]
      · simp [setValue, he, List.find?_cons, ih]
  by_cases h : k ∈ m.index
  · simp only [Set, h, if_pos, Get]
    rw [hsv]
  · have hd : ¬ (decide ((k : K) = k2) = true) := by simpa using fun hc => hne hc.symm
    simp only [Set, h, if_neg, not_false_iff, Get]
    rw [find?_key_append]
    have h1 : ([((k : K), v)].find? (fun e => e.1 = k2)) = none := by
      simp [List.find?_cons, hd]
    rw [h1]
    cases m.entries.find? (fun e => e.1 = k2) <;> rfl

end OrderedMap

namespace OrderedMap

variable {K V : Type} [DecidableEq K]

theorem eraseEntry_of_not_mem (l : List (K × V)) (k : K)
    (h : k ∉ l.map Prod.fst) : eraseEntry l k = l := by
  induction l with
  | nil => rfl
  | cons e rest ih =>
    simp only [List.map_cons, List.mem_cons] at h
    push_neg at h
    have h1 : ¬ e.1 = k := fun hc => h.1 hc.symm
    simp [eraseEntry, h1, ih h.2]

theorem eraseEntry_length (l : List (K × V)) (k : K)
    (h : k ∈ l.map Prod.fst) : (eraseEntry l k).length + 1 = l.length := by
  induction l with
  | nil => simp at h
  | cons e rest ih =>
    by_cases he : e.1 = k
    · simp [eraseEntry, he]
    · simp only [List.map_cons, List.mem_cons] at h
      rcases h with h | h
    
      · exact absurd h.symm he
      · simp [eraseEntry, he, ih h]

theorem wf_delete (m : OrderedMap K V) (hm : m.WF) (k : K) :
    (m.Delete k).WF := by
  obtain ⟨h1, h2, h3, h4⟩ := hm
  by_cases h : k ∈ m.index
  · have hk : k ∈ m.entries.map Prod.fst := h3.mem_iff.mpr h
    have hperm : ((m.entries.map Prod.fst).erase k).Perm (m.index.erase k) :=
      h3.erase k
    refine ⟨?_, ?_, ?_, ?_⟩
    · have := List.length_erase_of_mem h
      simp only [Delete, h, if_pos]
      omega
    · have := eraseEntry_length m.entries k hk
      simp only [Delete, h, if_pos, eraseEntry_map_fst]
      omega
    · simpa [Delete, h, eraseEntry_map_fst] using hperm
    · simpa [Delete, h, eraseEntry_map_fst] using h4.erase k
  · simpa [Delete, h] using ⟨h1, h2, h3, h4⟩

theorem delete_not_mem (m : OrderedMap K V) (k : K) (h : k ∉ m.index) :
    m.Delete k = m := by
  simp [Delete, h]

theorem keys_delete (m : OrderedMap K V) (k : K) (h : k ∈ m.index) :
    (m.Delete k).Keys = (m.Keys).erase k := by
  simp [Delete, h, Keys, eraseEntry_map_fst]

theorem get_delete_self (m : OrderedMap K V) (hm : m.WF) (k : K) :
    (m.Delete k).Get k = .error .keyNotFound := by
  by_cases h : k ∈ m.index
  · have hnd := hm.2.2.2
    have hkeys : ((m.Delete k).entries.map Prod.fst) = (m.entries.map Prod.fst).erase k := by
      simp [Delete, h, eraseEntry_map_fst]
    have hkm : k ∉ (m.entries.map Prod.fst).erase k := hnd.not_mem_erase
    have : k ∉ (m.Delete k).entries.map Prod.fst := by rw [hkeys]; exact hkm
    have hn : (m.Delete k).entries.find? (fun e => e.1 = k) = none := by
      cases hf : (m.Delete k).entries.find? (fun e => e.1 = k) with
      | none => rfl
      | some e =>
        have hs : ((m.Delete k).entries.find? (fun e => e.1 = k)).isSome := by rw [hf]; rfl
        exact absurd ((find?_key_isSome _ k).mp hs) this
    simp [Get, hn]
  · have hk : k ∉ m.entries.map Prod.fst := fun hc => h (hm.2.2.1.mem_iff.mp hc)
    have hn : m.entries.find? (fun e => e.1 = k) = none := by
      cases hf : m.entries.find? (fun e => e.1 = k) with
      | none => rfl
      | some e =>
        have hs : (m.entries.find? (fun e => e.1 = k)).isSome := by rw [hf]; rfl
        exact absurd ((find?_key_isSome _ k).mp hs) hk
    simp [delete_not_mem m k h, Get, hn]

theorem size_delete (m : OrderedMap K V) (k : K) (h : k ∈ m.index) :
    (m.Delete k).size = m.size - 1 := by
  simp [Delete, h]

theorem wf_clear (m : OrderedMap K V) : (m.Clear).WF := by
  simp [Clear, WF]

theorem wf_reverse (m : OrderedMap K V) (hm : m.WF) : (m.Reverse).WF := by
  obtain ⟨h1, h2, h3, h4⟩ := hm
  refine ⟨by simpa [Reverse] using h1, by simpa [Reverse] using h2, ?_, ?_⟩
  · simp only [Reverse, List.map_reverse]
    exact (List.reverse_perm _).trans h3
  · simp only [Reverse, List.map_reverse]
    simpa using h4

theorem wf_applyOps (m : OrderedMap K V) (hm : m.WF) (ops : List (K × V)) :
    (applyOps m ops).WF := by
  induction ops generalizing m with
  | nil => exact hm
  | cons e rest ih => exact ih _ (wf_set m hm e.1 e.2)

theorem wf_clone (m : OrderedMap K V) : (m.Clone).WF :=
  wf_applyOps _ (wf_new _) _

theorem wf_merge (m other : OrderedMap K V) (hm : m.WF) :
    (m.Merge other).WF :=
  wf_applyOps _ hm _

theorem wf_pop (m : OrderedMap K V) (hm : m.WF) (k : K) :
    (m.Pop k).2.WF := by
  by_cases h : k ∈ m.index
  · simpa [Pop, h] using wf_delete m hm k
  · simpa [Pop, h] using hm

theorem wf_invariant (m : OrderedMap K V) (hm : m.WF) : m.Invariant := by
  obtain ⟨h1, h2, h3, h4⟩ := hm
  refine ⟨h1, h2, ?_, ?_⟩
  · rw [Option.isNone_iff_eq_none, List.head?_eq_none_iff]
    constructor
    · intro hc; rw [hc] at h2; simpa using h2
    · intro hc
      rw [hc] at h2
      cases he : m.entries with
      | nil => rfl
      | cons e rest => rw [he] at h2; simp at h2
  · rw [Option.isNone_iff_eq_none, List.getLast?_eq_none_iff]
    constructor
    · intro hc; rw [hc] at h2; simpa using h2
    · intro hc
      rw [hc] at h2
      cases he : m.entries with
      | nil => rfl
      | cons e rest => rw [he] at h2; simp at h2

end OrderedMap

namespace OrderedMap

variable {K V : Type} [DecidableEq K]

/-- One step of the spec-side first-insertion order: append the key
when it is new. -/
def stepKey (acc : List K) (k : K) : List K :=
  if k ∈ acc then acc else acc ++ [k]

theorem keys_applyOps (m : OrderedMap K V) (hm : m.WF) (ops : List (K × V)) :
    (applyOps m ops).Keys = (ops.map Prod.fst).foldl stepKey m.Keys := by
  induction ops generalizing m with
  | nil => rfl
  | cons e rest ih =>
    have hstep : (m.Set e.1 e.2).Keys = stepKey m.Keys e.1 := by
      rw [keys_set m hm e.1 e.2, stepKey]
    calc (applyOps m (e :: rest)).Keys
        = (applyOps (m.Set e.1 e.2) rest).Keys := rfl
      _ = (rest.map Prod.fst).foldl stepKey (m.Set e.1 e.2).Keys :=
          ih _ (wf_set m hm e.1 e.2)
      _ = ((e :: rest).map Prod.fst).foldl stepKey m.Keys := by
          rw [hstep]; rfl

theorem get_applyOps (m : OrderedMap K V) (hm : m.WF) (ops : List (K × V)) (k : K) :
    (applyOps m ops).Get k =
      ((ops.filter (fun e => decide (e.1 = k))).getLast?).elim (m.Get k) (fun e => .ok e.2) := by
  induction ops generalizing m with
  | nil => rfl
  | cons e rest ih =>
    have hrec := ih (m.Set e.1 e.2) (wf_set m hm e.1 e.2)
    have hops : applyOps m (e :: rest) = applyOps (m.Set e.1 e.2) rest := rfl
    by_cases he : e.1 = k
    · have hfil : (e :: rest).filter (fun e : K × V => decide (e.1 = k)) =
          e :: rest.filter (fun e : K × V => decide (e.1 = k)) := by
        simp [List.filter_cons, he]
      rw [hops, hrec, hfil]
      have hset : (m.Set e.1 e.2).Get k = .ok e.2 := by
        rw [← he]; exact get_set_self m hm e.1 e.2
      cases hl : rest.filter (fun e : K × V => decide (e.1 = k)) with
      | nil => simp [hl, hset]
      | cons x xs =>
        cases hgl : (x :: xs).getLast? with
        | none => rw [List.getLast?_eq_none_iff] at hgl; exact absurd hgl (by simp)
        | some a => rw [List.getLast?_cons_cons, hgl]; rfl
    · have hfil : (e :: rest).filter (fun e : K × V => decide (e.1 = k)) =
          rest.filter (fun e : K × V => decide (e.1 = k)) := by
        simp [List.filter_cons, he]
      rw [hops, hrec, hfil, get_set_other m e.1 k e.2 (fun hc => he hc.symm)]

theorem entries_applyOps_fresh (m : OrderedMap K V) (ops : List (K × V))
    (hnd : (ops.map Prod.fst).Nodup)
    (hfresh : ∀ k ∈ ops.map Prod.fst, k ∉ m.index) :
    (applyOps m ops).entries = m.entries ++ ops := by
  induction ops generalizing m with
  | nil => simp [applyOps]
  | cons e rest ih =>
    have he : e.1 ∉ m.index := hfresh e.1 (by simp)
    rw [List.map_cons, List.nodup_cons] at hnd
    obtain ⟨hk, hrest⟩ := hnd
    have hfresh2 : ∀ k ∈ rest.map Prod.fst, k ∉ (m.Set e.1 e.2).index := by
      intro k hkm
      simp only [Set, he, if_neg, not_false_iff, List.mem_cons]
      intro hc
      rcases hc with hc | hc
      · exact hk (hc ▸ hkm)
      · exact hfresh k (by simp [hkm]) hc
    have hrec := ih (m.Set e.1 e.2) hrest hfresh2
    have hops : applyOps m (e :: rest) = applyOps (m.Set e.1 e.2) rest := rfl
    rw [hops, hrec]
    simp [Set, he]

/-- The spec-side first-insertion fold with an arbitrary start keeps a
list without duplicates. -/
theorem foldl_stepKey_nodup (ks : List K) (acc : List K) (hacc : acc.Nodup) :
    (ks.foldl stepKey acc).Nodup := by
  induction ks generalizing acc with
  | nil => exact hacc
  | cons k rest ih =>
    apply ih
    by_cases h : k ∈ acc
    · simpa [stepKey, h] using hacc
    · rw [stepKey, if_neg h, List.nodup_append]
      refine ⟨hacc, List.nodup_singleton k, ?_⟩
      intro a ha hb
      rw [List.mem_singleton] at hb
      subst hb
      exact h ha

theorem foldl_stepKey_filter (ks : List K) (hnd : ks.Nodup) (acc : List K) :
    ks.foldl stepKey acc = acc ++ ks.filter (fun x => decide (x ∉ acc)) := by
  induction ks generalizing acc with
  | nil => simp
  | cons k rest ih =>
    obtain ⟨hk, hrest⟩ := List.nodup_cons.mp hnd
    by_cases h : k ∈ acc
    · rw [List.foldl_cons, stepKey, if_pos h, ih hrest,
          List.filter_cons_of_neg (by simpa using h)]
    · rw [List.foldl_cons, stepKey, if_neg h, ih hrest,
          List.filter_cons_of_pos (by simpa using h)]
      have hfc : rest.filter (fun x => decide (x ∉ acc ++ [k])) =
          rest.filter (fun x => decide (x ∉ acc)) := by
        apply List.filter_congr
        intro x hx
        have hxk : x ≠ k := fun hc => hk (hc ▸ hx)
        simp [List.mem_append, hxk]
      rw [hfc, List.append_assoc]
      rfl

end OrderedMap

/-- The spec-side insertion order is the stepKey fold from the empty
accumulator. -/
theorem insertionOrder_eq_foldl {K : Type} [DecidableEq K] (ks : List K) :
    insertionOrder ks = ks.foldl OrderedMap.stepKey [] := rfl

namespace OrderedMap

variable {K V : Type} [DecidableEq K]

theorem sortedInsert_perm (les : K → K → Bool) (k : K) (l : List K) :
    (sortedInsert les k l).Perm (k :: l) := by
  induction l with
  | nil => exact List.Perm.refl _
  | cons x xs ih =>
    by_cases h : les k x
    · simp [sortedInsert, h]
    · have hstep : sortedInsert les k (x :: xs) = x :: sortedInsert les k xs := by
        simp [sortedInsert, h]
      rw [hstep]
      exact (ih.cons x).trans (List.Perm.swap k x xs)

theorem sortBy_perm (les : K → K → Bool) (l : List K) :
    (sortBy les l).Perm l := by
  induction l with
  | nil => exact List.Perm.refl _
  | cons x xs ih =>
    have h1 : sortBy les (x :: xs) = sortedInsert les x (sortBy les xs) := rfl
    rw [h1]
    exact (sortedInsert_perm les x (sortBy les xs)).trans (ih.cons x)

theorem filterMap_keyed (f : K → Option (K × V)) (l : List K)
    (h : ∀ k ∈ l, ∃ v, f k = some (k, v)) :
    (l.filterMap f).map Prod.fst = l := by
  induction l with
  | nil => rfl
  | cons x xs ih =>
    obtain ⟨v, hv⟩ := h x (by simp)
    have hrest : ∀ k ∈ xs, ∃ v, f k = some (k, v) := fun k hk => h k (by simp [hk])
    simp [List.filterMap_cons, hv, ih hrest]

theorem wf_rebuildFromKeys (m : OrderedMap K V) (hm : m.WF) (keys : List K)
    (hperm : keys.Perm m.Keys) : (m.rebuildFromKeys keys).WF := by
  obtain ⟨h1, h2, h3, h4⟩ := hm
  have hmem : ∀ k ∈ keys, ∃ v,
      (if k ∈ m.index then
        (m.entries.find? (fun e => e.1 = k)).map (fun e => (k, e.2))
      else none) = some (k, v) := by
    intro k hk
    have hkk : k ∈ m.entries.map Prod.fst := hperm.mem_iff.mp hk
    have hidx : k ∈ m.index := h3.mem_iff.mp hkk
    have hs : (m.entries.find? (fun e => e.1 = k)).isSome :=
      (find?_key_isSome m.entries k).mpr hkk
    cases hf : m.entries.find? (fun e => e.1 = k) with
    | none => rw [hf] at hs; simp at hs
    | some e => exact ⟨e.2, by simp [hidx, hf]⟩
  have hkeys : ((m.rebuildFromKeys keys).entries).map Prod.fst = keys := by
    simpa [rebuildFromKeys] using filterMap_keyed _ keys hmem
  have hlen : (m.rebuildFromKeys keys).entries.length = keys.length := by
    have := congrArg List.length hkeys
    simpa using this
  refine ⟨?_, ?_, ?_, ?_⟩
  · have e1 : (m.rebuildFromKeys keys).size = (m.rebuildFromKeys keys).entries.length := by
      simp [rebuildFromKeys]
    have e2 : keys.length = m.entries.length := by
      have := hperm.length_eq
      simpa [Keys] using this
    have e3 : (m.rebuildFromKeys keys).index = m.index := by simp [rebuildFromKeys]
    rw [e1, hlen, e3, e2, ← h2]
    exact h1
  · simp [rebuildFromKeys]
  · rw [hkeys]
    exact hperm.trans h3
  · rw [hkeys]
    exact hperm.nodup_iff.mpr h4

end OrderedMap

namespace OrderedMap

variable {K V : Type} [DecidableEq K]

theorem wf_sortKeys (m : OrderedMap K V) (hm : m.WF) (les : K → K → Bool) :
    (m.sortKeys les).1.WF := by
  unfold sortKeys
  cases hv : m.validateKey with
  | some err => exact hm
  | none => exact wf_rebuildFromKeys m hm _ (sortBy_perm les m.Keys)

end OrderedMap

theorem wf_decodeMembers (fuel : Nat) (m : OrderedMap String Json)
    (ts : List JTok) (hm : m.WF) : (decodeMembers fuel m ts).1.WF := by
  induction fuel generalizing m ts with
  | zero => simpa [decodeMembers] using hm
  | succ f ih =>
    cases ts with
    | nil => simpa [decodeMembers] using hm
    | cons t r =>
      by_cases hmore : More (t :: r) = true
      · cases t
        all_goals try (simpa [decodeMembers, hmore] using hm)
        rename_i k
        cases hp : parseVal (2 * r.length + 2) r with
        | some p =>
          have hstep : decodeMembers (f + 1) m (.str k :: r) =
              decodeMembers f (m.Set k p.1) p.2 := by
            simp [decodeMembers, hmore, hp]
          rw [hstep]
          exact ih (m.Set k p.1) p.2 (OrderedMap.wf_set m hm k p.1)
        | none => simpa [decodeMembers, hmore, hp] using hm
      · simpa [decodeMembers, hmore] using hm

theorem wf_unmarshal (m : OrderedMap String Json) (hm : m.WF)
    (data : List JTok) : (UnmarshalJSON m data).1.WF := by
  unfold UnmarshalJSON
  cases hv : m.validateKey with
  | some err => exact hm
  | none =>
    by_cases hn : data = [JTok.null]
    · simpa [hn] using OrderedMap.wf_clear m
    · cases data with
      | nil => simpa [hn] using OrderedMap.wf_clear m
      | cons t rest =>
        have hdm := wf_decodeMembers (rest.length + 1) m.Clear rest
          (OrderedMap.wf_clear m)
        rcases hrec : decodeMembers (rest.length + 1) m.Clear rest with ⟨m1, ts, e⟩
        rw [hrec] at hdm
        cases e with
        | some err => simpa [hn, hrec] using hdm
        | none =>
          cases ts with
          | nil => simpa [hn, hrec] using hdm
          | cons t2 r2 => simpa [hn, hrec] using hdm

theorem tokensOf_ne_nil (v : Json) : tokensOf v ≠ [] := by
  cases v <;> simp [tokensOf]

theorem tokensOf_head_ne_close (v : Json) (t : JTok) (tr : List JTok)
    (h : tokensOf v = t :: tr) : t ≠ .arrClose ∧ t ≠ .objClose := by
  cases v <;> (simp [tokensOf] at h; rw [← h.1]; simp)

theorem sizeV_pos (v : Json) : 1 ≤ sizeV v := by
  cases v <;> (simp only [sizeV]; omega)

theorem sizeL_pos (es : List Json) : 1 ≤ sizeL es := by
  cases es with
  | nil => simp [sizeL]
  | cons v vs => simp only [sizeL]; omega

theorem sizeF_pos (fs : List (String × Json)) : 1 ≤ sizeF fs := by
  cases fs with
  | nil => simp [sizeF]
  | cons f fs =>
    cases f with
    | mk k v => simp only [sizeF]; omega

/-- The delegated token parser inverts the delegated token printer: a
printed value followed by any continuation parses back to exactly that
value, leaving the continuation, given fuel at least the value size. -/
theorem parse_inversion (fuel : Nat) :
    (∀ (v : Json) (rest : List JTok), sizeV v ≤ fuel →
      parseVal fuel (tokensOf v ++ rest) = some (v, rest)) ∧
    (∀ (es : List Json) (rest : List JTok), sizeL es ≤ fuel →
      parseElems fuel (elemsTokens es ++ .arrClose :: rest) = some (es, rest)) ∧
    (∀ (fs : List (String × Json)) (rest : List JTok), sizeF fs ≤ fuel →
      parseFields fuel (fieldsTokens fs ++ .objClose :: rest) = some (fs, rest)) := by
  induction fuel with
  | zero =>
    refine ⟨fun v rest h => ?_, fun es rest h => ?_, fun fs rest h => ?_⟩
    · have := sizeV_pos v; omega
    · have := sizeL_pos es; omega
    · have := sizeF_pos fs; omega
  | succ f ih =>
    obtain ⟨ihV, ihE, ihF⟩ := ih
    refine ⟨fun v rest h => ?_, fun es rest h => ?_, fun fs rest h => ?_⟩
    · cases v with
      | null => simp [tokensOf, parseVal]
      | bool b => simp [tokensOf, parseVal]
      | num n => simp [tokensOf, parseVal]
      | str s => simp [tokensOf, parseVal]
      | arr es =>
        have hs : sizeL es ≤ f := by simp only [sizeV] at h; omega
        have hstream : tokensOf (.arr es) ++ rest =
            .arrOpen :: (elemsTokens es ++ .arrClose :: rest) := by
          simp [tokensOf]
        rw [hstream]
        simp [parseVal, ihE es rest hs]
      | obj fs =>
        have hs : sizeF fs ≤ f := by simp only [sizeV] at h; omega
        have hstream : tokensOf (.obj fs) ++ rest =
            .objOpen :: (fieldsTokens fs ++ .objClose :: rest) := by
          simp [tokensOf]
        rw [hstream]
        simp [parseVal, ihF fs rest hs]
    · cases es with
      | nil => simp [elemsTokens, parseElems]
      | cons v vs =>
        have hv : sizeV v ≤ f := by simp only [sizeL] at h; omega
        have hvs : sizeL vs ≤ f := by simp only [sizeL] at h; omega
        obtain ⟨t, tr, htv⟩ : ∃ t tr, tokensOf v = t :: tr := by
          cases hv0 : tokensOf v with
          | nil => exact absurd hv0 (tokensOf_ne_nil v)
          | cons a b => exact ⟨a, b, rfl⟩
        have hne := tokensOf_head_ne_close v t tr htv
        have hstream : elemsTokens (v :: vs) ++ .arrClose :: rest =
            t :: (tr ++ (elemsTokens vs ++ .arrClose :: rest)) := by
          simp [elemsTokens, htv]
        rw [hstream]
        have h1 : parseVal f (t :: (tr ++ (elemsTokens vs ++ .arrClose :: rest))) =
            some (v, elemsTokens vs ++ .arrClose :: rest) := by
          have hx : t :: (tr ++ (elemsTokens vs ++ .arrClose :: rest)) =
              tokensOf v ++ (elemsTokens vs ++ .arrClose :: rest) := by
            simp [htv]
          rw [hx]
          exact ihV v _ hv
        simp [parseElems, hne.1, h1, ihE vs rest hvs]
    · cases fs with
      | nil => simp [fieldsTokens, parseFields]
      | cons e fs2 =>
        cases e with
        | mk k v =>
          have hv : sizeV v ≤ f := by simp only [sizeF] at h; omega
          have hfs : sizeF fs2 ≤ f := by simp only [sizeF] at h; omega
          have hstream : fieldsTokens ((k, v) :: fs2) ++ .objClose :: rest =
              .str k :: (tokensOf v ++ (fieldsTokens fs2 ++ .objClose :: rest)) := by
            simp [fieldsTokens]
          rw [hstream]
          have h1 : parseVal f (tokensOf v ++ (fieldsTokens fs2 ++ .objClose :: rest)) =
              some (v, fieldsTokens fs2 ++ .objClose :: rest) := ihV v _ hv
          simp [parseFields, h1, ihF fs2 rest hfs]

mutual

theorem sizeV_le_tokens : (v : Json) → sizeV v + 1 ≤ 2 * (tokensOf v).length
  | .null => by simp [sizeV, tokensOf]
  | .bool b => by simp [sizeV, tokensOf]
  | .num n => by simp [sizeV, tokensOf]
  | .str s => by simp [sizeV, tokensOf]
  | .arr es => by
    have h := sizeL_le_tokens es
    simp only [sizeV, tokensOf, List.length_cons, List.length_append,
      List.length_singleton]
    omega
  | .obj fs => by
    have h := sizeF_le_tokens fs
    simp only [sizeV, tokensOf, List.length_cons, List.length_append,
      List.length_singleton]
    omega

theorem sizeL_le_tokens : (es : List Json) →
    sizeL es ≤ 2 * (elemsTokens es).length + 2
  | [] => by simp [sizeL, elemsTokens]
  | v :: vs => by
    have h1 := sizeV_le_tokens v
    have h2 := sizeL_le_tokens vs
    simp only [sizeL, elemsTokens, List.length_append]
    omega

theorem sizeF_le_tokens : (fs : List (String × Json)) →
    sizeF fs ≤ 2 * (fieldsTokens fs).length + 2
  | [] => by simp [sizeF, fieldsTokens]
  | (k, v) :: fs => by
    have h1 := sizeV_le_tokens v
    have h2 := sizeF_le_tokens fs
    simp only [sizeF, fieldsTokens, List.length_cons, List.length_append]
    omega

end

theorem fieldsTokens_len (fields : List (String × Json)) :
    fields.length ≤ (fieldsTokens fields).length := by
  induction fields with
  | nil => simp [fieldsTokens]
  | cons e fs ih =>
    cases e with
    | mk k v =>
      simp only [fieldsTokens, List.length_cons, List.length_append]
      omega

/-- Running the member loop over the token stream of a member list
followed by a continuation that stops More: every pair is applied via
Set, in stream order. -/
theorem decodeMembers_fields (fields : List (String × Json)) :
    ∀ (fuel : Nat) (m : OrderedMap String Json) (rest : List JTok),
    fields.length < fuel → More rest = false →
    decodeMembers fuel m (fieldsTokens fields ++ rest) =
      (OrderedMap.applyOps m fields, rest, none) := by
  induction fields with
  | nil =>
    intro fuel m rest hfuel hrest
    cases fuel with
    | zero => omega
    | succ f =>
      cases rest with
      | nil => simp [fieldsTokens, decodeMembers, OrderedMap.applyOps]
      | cons t r =>
        simp [fieldsTokens, decodeMembers, hrest, OrderedMap.applyOps]
  | cons e fs ih =>
    intro fuel m rest hfuel hrest
    cases e with
    | mk k v =>
      cases fuel with
      | zero => omega
      | succ f =>
        have hf2 : fs.length < f := by
          simp only [List.length_cons] at hfuel
          omega
        have hstream : fieldsTokens ((k, v) :: fs) ++ rest =
            .str k :: (tokensOf v ++ (fieldsTokens fs ++ rest)) := by
          simp [fieldsTokens]
        rw [hstream]
        have hmore : More (.str k :: (tokensOf v ++ (fieldsTokens fs ++ rest))) = true := by
          simp [More]
        have hsize : sizeV v ≤ 2 * (tokensOf v ++ (fieldsTokens fs ++ rest)).length + 2 := by
          have h1 := sizeV_le_tokens v
          have h2 : (tokensOf v).length ≤ (tokensOf v ++ (fieldsTokens fs ++ rest)).length := by
            simp
          omega
        have hp : parseVal (2 * (tokensOf v ++ (fieldsTokens fs ++ rest)).length + 2)
            (tokensOf v ++ (fieldsTokens fs ++ rest)) =
            some (v, fieldsTokens fs ++ rest) :=
          (parse_inversion _).1 v _ hsize
        have hstep : decodeMembers (f + 1) m
            (.str k :: (tokensOf v ++ (fieldsTokens fs ++ rest))) =
            decodeMembers f (m.Set k v) (fieldsTokens fs ++ rest) := by
          simp only [decodeMembers, hmore, if_true, hp]
        rw [hstep, ih f (m.Set k v) rest hf2 hrest]
        rfl

theorem validateKey_of_true {K V : Type} [DecidableEq K] (m : OrderedMap K V)
    (h : m.isKeyString = true) : m.validateKey = none := by
  simp [OrderedMap.validateKey, h]

theorem validateKey_of_false {K V : Type} [DecidableEq K] (m : OrderedMap K V)
    (h : m.isKeyString = false) : m.validateKey = some .keyMustBeString := by
  simp [OrderedMap.validateKey, h]

/-- Decoding the token stream of an object input: every member is
applied via Set to the cleared container, in input order, and decode
succeeds. -/
theorem unmarshal_obj (m : OrderedMap String Json)
    (hflag : m.isKeyString = true) (fields : List (String × Json)) :
    UnmarshalJSON m (tokensOf (.obj fields)) =
      (OrderedMap.applyOps m.Clear fields, none) := by
  have hval : m.validateKey = none := validateKey_of_true m hflag
  have hlen : fields.length < (fieldsTokens fields ++ [JTok.objClose]).length + 1 := by
    have := fieldsTokens_len fields
    simp only [List.length_append, List.length_cons, List.length_nil]
    omega
  have hdm := decodeMembers_fields fields
      ((fieldsTokens fields ++ [JTok.objClose]).length + 1) m.Clear [JTok.objClose]
      hlen (by simp [More])
  have hstream : tokensOf (Json.obj fields) =
      JTok.objOpen :: (fieldsTokens fields ++ [JTok.objClose]) := by
    simp [tokensOf]
  rw [hstream]
  simp only [UnmarshalJSON, hval]
  rw [if_neg (by simp)]
  simp only [hdm]

/-- The state accumulated by the member loop is exactly Set applied to
the pairs it decoded, whether it stopped cleanly or on an error. -/
theorem decodeMembers_fst (fuel : Nat) (m : OrderedMap String Json)
    (ts : List JTok) :
    (decodeMembers fuel m ts).1 = OrderedMap.applyOps m (decodedPairs fuel ts) := by
  induction fuel generalizing m ts with
  | zero => simp [decodeMembers, decodedPairs, OrderedMap.applyOps]
  | succ f ih =>
    cases ts with
    | nil => simp [decodeMembers, decodedPairs, OrderedMap.applyOps]
    | cons t r =>
      by_cases hmore : More (t :: r) = true
      · cases t
        all_goals try (solve
          | simp [decodeMembers, decodedPairs, hmore, OrderedMap.applyOps])
        rename_i k
        cases hp : parseVal (2 * r.length + 2) r with
        | some p =>
          have hstep : decodeMembers (f + 1) m (.str k :: r) =
              decodeMembers f (m.Set k p.1) p.2 := by
            simp only [decodeMembers, hmore, if_true, hp]
          have hpair : decodedPairs (f + 1) (.str k :: r) =
              (k, p.1) :: decodedPairs f p.2 := by
            simp only [decodedPairs, hmore, if_true, hp]
          rw [hstep, hpair, ih]
          rfl
        | none =>
          simp [decodeMembers, decodedPairs, hmore, hp, OrderedMap.applyOps]
      · simp [decodeMembers, decodedPairs, hmore, OrderedMap.applyOps]

theorem elemsTokens_len (es : List Json) : es.length ≤ (elemsTokens es).length := by
  induction es with
  | nil => simp [elemsTokens]
  | cons v vs ih =>
    have h1 : 1 ≤ (tokensOf v).length := by
      cases hv : tokensOf v with
      | nil => exact absurd hv (tokensOf_ne_nil v)
      | cons a b => simp
    simp only [elemsTokens, List.length_cons, List.length_append]
    omega

/-- The member loop on an array element stream: accepted exactly when
the elements alternate string keys and values, in which case the pairs
are applied via Set in order; otherwise the loop reports an error. -/
theorem decodeMembers_alt :
    ∀ (es : List Json) (fuel : Nat) (m : OrderedMap String Json),
    es.length < fuel →
    ((∀ ps, altPairs es = some ps →
      decodeMembers fuel m (elemsTokens es ++ [.arrClose]) =
        (OrderedMap.applyOps m ps, [.arrClose], none)) ∧
     (altPairs es = none →
      (decodeMembers fuel m (elemsTokens es ++ [.arrClose])).2.2 ≠ none))
  | [], fuel, m, h => by
    cases fuel with
    | zero => omega
    | succ f =>
      constructor
      · intro ps hps
        have hps2 : ps = [] := by
          have : altPairs ([] : List Json) = some [] := rfl
          rw [this] at hps
          cases hps
          rfl
        subst hps2
        simp [elemsTokens, decodeMembers, More, OrderedMap.applyOps]
      · intro hnone
        have : altPairs ([] : List Json) = some [] := rfl
        rw [this] at hnone
        cases hnone
  | .str k :: v :: rest, fuel, m, h => by
    cases fuel with
    | zero => omega
    | succ f =>
      have hlen : rest.length < f := by
        simp only [List.length_cons] at h
        omega
      have ihr := decodeMembers_alt rest f (m.Set k v) hlen
      have hstream : elemsTokens (.str k :: v :: rest) ++ [JTok.arrClose] =
          .str k :: (tokensOf v ++ (elemsTokens rest ++ [JTok.arrClose])) := by
        simp [elemsTokens, tokensOf]
      have hmore : More (.str k ::
          (tokensOf v ++ (elemsTokens rest ++ [JTok.arrClose]))) = true := by
        simp [More]
      have hsize : sizeV v ≤
          2 * (tokensOf v ++ (elemsTokens rest ++ [JTok.arrClose])).length + 2 := by
        have h1 := sizeV_le_tokens v
        have h2 : (tokensOf v).length ≤
            (tokensOf v ++ (elemsTokens rest ++ [JTok.arrClose])).length := by simp
        omega
      have hp : parseVal
          (2 * (tokensOf v ++ (elemsTokens rest ++ [JTok.arrClose])).length + 2)
          (tokensOf v ++ (elemsTokens rest ++ [JTok.arrClose])) =
          some (v, elemsTokens rest ++ [JTok.arrClose]) :=
        (parse_inversion _).1 v _ hsize
      have hstep : decodeMembers (f + 1) m
          (elemsTokens (.str k :: v :: rest) ++ [JTok.arrClose]) =
          decodeMembers f (m.Set k v) (elemsTokens rest ++ [JTok.arrClose]) := by
        rw [hstream]
        simp only [decodeMembers, hmore, if_true, hp]
      have halt : altPairs (.str k :: v :: rest) =
          (altPairs rest).map (fun ps => (k, v) :: ps) := rfl
      constructor
      · intro ps hps
        rw [halt] at hps
        cases har : altPairs rest with
        | none => rw [har] at hps; cases hps
        | some ps2 =>
          rw [har] at hps
          have hps2 : ps = (k, v) :: ps2 := by
            cases hps
            rfl
          subst hps2
          rw [hstep, ihr.1 ps2 har]
          rfl
      · intro hnone
        rw [halt] at hnone
        cases har : altPairs rest with
        | some ps2 => rw [har] at hnone; cases hnone
        | none =>
          rw [hstep]
          exact ihr.2 har
  | [.str k], fuel, m, h => by
    cases fuel with
    | zero => omega
    | succ f =>
      have halt : altPairs [Json.str k] = none := rfl
      constructor
      · intro ps hps
        rw [halt] at hps
        cases hps
      · intro _
        have hstream : elemsTokens [Json.str k] ++ [JTok.arrClose] =
            [JTok.str k, JTok.arrClose] := by
          simp [elemsTokens, tokensOf]
        rw [hstream]
        have hmore : More [JTok.str k, JTok.arrClose] = true := by simp [More]
        have hp : parseVal (2 * [JTok.arrClose].length + 2) [JTok.arrClose] =
            none := rfl
        simp only [decodeMembers, hmore, if_true, hp]
        simp
  | .null :: rest, fuel, m, h => by
    cases fuel with
    | zero => omega
    | succ f =>
      have halt : altPairs (Json.null :: rest) = none := rfl
      refine ⟨fun ps hps => ?_, fun _ => ?_⟩
      · rw [halt] at hps
        cases hps
      · simp [elemsTokens, tokensOf, decodeMembers, More]
  | .bool b :: rest, fuel, m, h => by
    cases fuel with
    | zero => omega
    | succ f =>
      have halt : altPairs (Json.bool b :: rest) = none := rfl
      refine ⟨fun ps hps => ?_, fun _ => ?_⟩
      · rw [halt] at hps
        cases hps
      · simp [elemsTokens, tokensOf, decodeMembers, More]
  | .num n :: rest, fuel, m, h => by
    cases fuel with
    | zero => omega
    | succ f =>
      have halt : altPairs (Json.num n :: rest) = none := rfl
      refine ⟨fun ps hps => ?_, fun _ => ?_⟩
      · rw [halt] at hps
        cases hps
      · simp [elemsTokens, tokensOf, decodeMembers, More]
  | .arr es2 :: rest, fuel, m, h => by
    cases fuel with
    | zero => omega
    | succ f =>
      have halt : altPairs (Json.arr es2 :: rest) = none := rfl
      refine ⟨fun ps hps => ?_, fun _ => ?_⟩
      · rw [halt] at hps
        cases hps
      · simp [elemsTokens, tokensOf, decodeMembers, More]
  | .obj fs :: rest, fuel, m, h => by
    cases fuel with
    | zero => omega
    | succ f =>
      have halt : altPairs (Json.obj fs :: rest) = none := rfl
      refine ⟨fun ps hps => ?_, fun _ => ?_⟩
      · rw [halt] at hps
        cases hps
      · simp [elemsTokens, tokensOf, decodeMembers, More]

theorem unmarshal_flag_false (m : OrderedMap String Json)
    (hflag : m.isKeyString = false) (data : List JTok) :
    UnmarshalJSON m data = (m, some .keyMustBeString) := by
  simp [UnmarshalJSON, validateKey_of_false m hflag]

theorem unmarshal_null (m : OrderedMap String Json)
    (hflag : m.isKeyString = true) :
    UnmarshalJSON m [JTok.null] = (m.Clear, none) := by
  simp [UnmarshalJSON, validateKey_of_true m hflag]

/-- Decoding the token stream of an array whose elements alternate
string keys and values: accepted, pairs applied via Set in order. -/
theorem unmarshal_arr_some (m : OrderedMap String Json)
    (hflag : m.isKeyString = true) (es : List Json)
    (ps : List (String × Json)) (hps : altPairs es = some ps) :
    UnmarshalJSON m (tokensOf (.arr es)) =
      (OrderedMap.applyOps m.Clear ps, none) := by
  have hval : m.validateKey = none := validateKey_of_true m hflag
  have hlen : es.length < (elemsTokens es ++ [JTok.arrClose]).length + 1 := by
    have := elemsTokens_len es
    simp only [List.length_append, List.length_cons, List.length_nil]
    omega
  have hdm := (decodeMembers_alt es ((elemsTokens es ++ [JTok.arrClose]).length + 1)
      m.Clear hlen).1 ps hps
  have hstream : tokensOf (Json.arr es) =
      JTok.arrOpen :: (elemsTokens es ++ [JTok.arrClose]) := by
    simp [tokensOf]
  rw [hstream]
  simp only [UnmarshalJSON, hval]
  rw [if_neg (by simp)]
  simp only [hdm]

/-- Decoding the token stream of an array whose elements do not
alternate string keys and values: rejected with an error. -/
theorem unmarshal_arr_none (m : OrderedMap String Json)
    (hflag : m.isKeyString = true) (es : List Json)
    (hps : altPairs es = none) :
    (UnmarshalJSON m (tokensOf (.arr es))).2 ≠ none := by
  have hval : m.validateKey = none := validateKey_of_true m hflag
  have hlen : es.length < (elemsTokens es ++ [JTok.arrClose]).length + 1 := by
    have := elemsTokens_len es
    simp only [List.length_append, List.length_cons, List.length_nil]
    omega
  have hdm := (decodeMembers_alt es ((elemsTokens es ++ [JTok.arrClose]).length + 1)
      m.Clear hlen).2 hps
  have hstream : tokensOf (Json.arr es) =
      JTok.arrOpen :: (elemsTokens es ++ [JTok.arrClose]) := by
    simp [tokensOf]
  rw [hstream]
  simp only [UnmarshalJSON, hval]
  rw [if_neg (by simp)]
  rcases hrec : decodeMembers ((elemsTokens es ++ [JTok.arrClose]).length + 1)
      m.Clear (elemsTokens es ++ [JTok.arrClose]) with ⟨m1, ts, e⟩
  rw [hrec] at hdm
  cases e with
  | some err => simp
  | none => simp at hdm

/-- Decoding the token stream of a scalar input: the loop finds no
member and the final token read hits end of input. -/
theorem unmarshal_scalar (m : OrderedMap String Json)
    (hflag : m.isKeyString = true) (v : Json)
    (hv : sizeV v = 1) (hnull : v ≠ .null) :
    UnmarshalJSON m (tokensOf v) = (m.Clear, some .readCloseTok) := by
  have hval : m.validateKey = none := validateKey_of_true m hflag
  cases v with
  | null => exact absurd rfl hnull
  | bool b => simp [tokensOf, UnmarshalJSON, hval, decodeMembers, More]
  | num n => simp [tokensOf, UnmarshalJSON, hval, decodeMembers, More]
  | str s => simp [tokensOf, UnmarshalJSON, hval, decodeMembers, More]
  | arr es => simp [sizeV] at hv; have := sizeL_pos es; omega
  | obj fs => simp [sizeV] at hv; have := sizeF_pos fs; omega

/-- An object stream that is never closed: the loop consumes every
member, then the closing token read hits end of input. -/
theorem unmarshal_missing_close (m : OrderedMap String Json)
    (hflag : m.isKeyString = true) (fields : List (String × Json)) :
    UnmarshalJSON m (JTok.objOpen :: fieldsTokens fields) =
      (OrderedMap.applyOps m.Clear fields, some .readCloseTok) := by
  have hval : m.validateKey = none := validateKey_of_true m hflag
  have hlen : fields.length < (fieldsTokens fields).length + 1 := by
    have := fieldsTokens_len fields
    omega
  have hdm := decodeMembers_fields fields ((fieldsTokens fields).length + 1)
      m.Clear [] hlen (by simp [More])
  rw [List.append_nil] at hdm
  simp only [UnmarshalJSON, hval]
  rw [if_neg ?hne]
  case hne =>
    intro hc
    have : fieldsTokens fields = [] := by
      injection hc with h1 h2
    rw [this] at hc
    simp at hc
  simp only [hdm]

namespace OrderedMap

variable {K V : Type} [DecidableEq K]

/-- The scan position of IndexOf depends only on the key sequence. -/
theorem indexOfAux_keys (l1 : List (K × V)) (l2 : List (K × V)) (k : K) (i : Nat)
    (h : l1.map Prod.fst = l2.map Prod.fst) :
    indexOfAux l1 k i = indexOfAux l2 k i := by
  induction l1 generalizing l2 i with
  | nil =>
    cases l2 with
    | nil => rfl
    | cons b bs => simp at h
  | cons a as ih =>
    cases l2 with
    | nil => simp at h
    | cons b bs =>
      simp only [List.map_cons, List.cons.injEq] at h
      by_cases hk : a.1 = k
      · simp [indexOfAux, hk, h.1 ▸ hk]
      · have hbk : ¬ b.1 = k := by rw [← h.1]; exact hk
        simp [indexOfAux, hk, hbk, ih bs (i + 1) h.2]

theorem indexOfAux_append_left (l1 l2 : List (K × V)) (k : K) (i : Nat)
    (h : k ∈ l1.map Prod.fst) :
    indexOfAux (l1 ++ l2) k i = indexOfAux l1 k i := by
  induction l1 generalizing i with
  | nil => simp at h
  | cons a as ih =>
    by_cases hk : a.1 = k
    · simp [indexOfAux, hk]
    · have h2 : k ∈ as.map Prod.fst := by
        simp only [List.map_cons, List.mem_cons] at h
        rcases h with h | h
        · exact absurd h.symm hk
        · exact h
      simp [indexOfAux, hk, ih (i + 1) h2]

/-- The key sequence of a Set fold always extends the starting key
sequence. -/
theorem foldl_stepKey_prefix (ks : List K) (acc : List K) :
    ∃ suff, ks.foldl stepKey acc = acc ++ suff := by
  induction ks generalizing acc with
  | nil => exact ⟨[], by simp⟩
  | cons k rest ih =>
    by_cases h : k ∈ acc
    · obtain ⟨suff, hs⟩ := ih acc
      exact ⟨suff, by simpa [stepKey, h] using hs⟩
    · obtain ⟨suff, hs⟩ := ih (acc ++ [k])
      refine ⟨[k] ++ suff, ?_⟩
      rw [List.foldl_cons, stepKey, if_neg h, hs, List.append_assoc]

theorem mem_foldl_stepKey (ks : List K) (acc : List K) (k : K) :
    k ∈ ks.foldl stepKey acc ↔ k ∈ acc ∨ k ∈ ks := by
  induction ks generalizing acc with
  | nil => simp
  | cons x rest ih =>
    by_cases h : x ∈ acc
    · rw [List.foldl_cons, stepKey, if_pos h, ih]
      constructor
      · rintro (hc | hc)
        · exact Or.inl hc
        · exact Or.inr (List.mem_cons_of_mem x hc)
      · rintro (hc | hc)
        · exact Or.inl hc
        · rcases List.mem_cons.mp hc with hc | hc
          · exact Or.inl (hc ▸ h)
          · exact Or.inr hc
    · rw [List.foldl_cons, stepKey, if_neg h, ih]
      simp only [List.mem_append, List.mem_singleton, List.mem_cons]
      tauto

/-- With pairwise distinct keys, the entries matching a present key
form exactly one singleton, which is also what find? returns. -/
theorem filter_key_nodup (l : List (K × V)) (hnd : (l.map Prod.fst).Nodup)
    (k : K) (hk : k ∈ l.map Prod.fst) :
    ∃ e, l.filter (fun e => decide (e.1 = k)) = [e] ∧
      l.find? (fun e => e.1 = k) = some e := by
  induction l with
  | nil => simp at hk
  | cons a as ih =>
    rw [List.map_cons, List.nodup_cons] at hnd
    by_cases ha : a.1 = k
    · refine ⟨a, ?_, ?_⟩
      · have hnone : as.filter (fun e => decide (e.1 = k)) = [] := by
          apply List.filter_eq_nil_iff.mpr
          intro e he
          simp only [decide_eq_true_eq]
          intro hc
          exact hnd.1 (by rw [← ha] at hc; rw [← hc]; exact List.mem_map_of_mem Prod.fst he)
        simp [List.filter_cons, ha, hnone]
      · simp [List.find?_cons, ha]
    · have hk2 : k ∈ as.map Prod.fst := by
        simp only [List.map_cons, List.mem_cons] at hk
        rcases hk with hk | hk
        · exact absurd hk.symm ha
        · exact hk
      obtain ⟨e, he1, he2⟩ := ih hnd.2 hk2
      have had : ¬ (decide (a.1 = k) = true) := by simpa using ha
      exact ⟨e, by simp [List.filter_cons, had, he1], by simp [List.find?_cons, had, he2]⟩

end OrderedMap

/-- The member loop never reports the key-type error: that error is
produced only by the validateKey gate before the loop. -/
theorem decodeMembers_err_ne (fuel : Nat) (m : OrderedMap String Json)
    (ts : List JTok) :
    (decodeMembers fuel m ts).2.2 ≠ some OMError.keyMustBeString := by
  induction fuel generalizing m ts with
  | zero => simp [decodeMembers]
  | succ f ih =>
    cases ts with
    | nil => simp [decodeMembers]
    | cons t r =>
      by_cases hmore : More (t :: r) = true
      · cases t
        all_goals try (solve | simp [decodeMembers, hmore])
        rename_i k
        cases hp : parseVal (2 * r.length + 2) r with
        | some p =>
          have hstep : decodeMembers (f + 1) m (.str k :: r) =
              decodeMembers f (m.Set k p.1) p.2 := by
            simp only [decodeMembers, hmore, if_true, hp]
          rw [hstep]
          exact ih (m.Set k p.1) p.2
        | none => simp [decodeMembers, hmore, hp]
      · simp [decodeMembers, hmore]

/-- Concrete string-to-integer container for witnesses: Set a:=1 then
b:=2 on a fresh string-keyed container. -/
def wmi : OrderedMap String Int :=
  ((OrderedMap.new true).Set "a" 1).Set "b" 2

/-- Concrete string-to-Json container for codec witnesses. -/
def wm : OrderedMap String Json :=
  ((OrderedMap.new true).Set "a" (.num 1)).Set "b" (.num 2)

/-- C9: Reverse is an involution: calling Reverse twice restores the
container exactly, hence Keys and Values are restored, and a single
Reverse yields exactly the reversed key and value orders. -/
theorem claim_C9 {K V : Type} [DecidableEq K] (m : OrderedMap K V) :
    (m.Reverse).Reverse = m ∧
    (m.Reverse).Keys = m.Keys.reverse ∧
    (m.Reverse).Values = m.Values.reverse ∧
    ((m.Reverse).Reverse).Keys = m.Keys ∧
    ((m.Reverse).Reverse).Values = m.Values := by
  refine ⟨?_, ?_, ?_, ?_, ?_⟩
  · cases m with
    | mk e i s b => simp [OrderedMap.Reverse]
  · simp [OrderedMap.Reverse, OrderedMap.Keys]
  · simp [OrderedMap.Reverse, OrderedMap.Values]
  · simp [OrderedMap.Reverse, OrderedMap.Keys]
  · simp [OrderedMap.Reverse, OrderedMap.Values]

/-- C5: deleting a present key makes Get on it report key-not-found,
decrements Len by exactly one, and erases exactly that key from the key
order leaving the others in place; deleting an absent key leaves the
container unchanged. -/
theorem claim_C5 {K V : Type} [DecidableEq K] (m : OrderedMap K V) (k : K)
    (hm : m.WF) :
    (k ∈ m.Keys →
      (m.Delete k).Get k = .error .keyNotFound ∧
      (m.Delete k).Len + 1 = m.Len ∧
      (m.Delete k).Keys = m.Keys.erase k) ∧
    (k ∉ m.Keys → m.Delete k = m) := by
  constructor
  · intro hk
    have hidx : k ∈ m.index := (OrderedMap.mem_keys_iff_index m hm k).mp hk
    refine ⟨OrderedMap.get_delete_self m hm k, ?_,
      OrderedMap.keys_delete m k hidx⟩
    have hlen : 1 ≤ m.entries.length := by
      cases he : m.entries with
      | nil => simp [OrderedMap.Keys, he] at hk
      | cons a b => simp
    have h2 := hm.2.1
    simp only [OrderedMap.Delete, hidx, if_pos, OrderedMap.Len]
    omega
  · intro hk
    have hidx : k ∉ m.index := fun hc =>
      hk ((OrderedMap.mem_keys_iff_index m hm k).mpr hc)
    exact OrderedMap.delete_not_mem m k hidx

theorem claim_C5_witness :
    wmi.WF ∧
    (("a" ∈ wmi.Keys →
      (wmi.Delete "a").Get "a" = .error .keyNotFound ∧
      (wmi.Delete "a").Len + 1 = wmi.Len ∧
      (wmi.Delete "a").Keys = wmi.Keys.erase "a") ∧
     ("a" ∉ wmi.Keys → wmi.Delete "a" = wmi)) :=
  ⟨by decide, claim_C5 wmi "a" (by decide)⟩

/-- C1: folding any sequence of Set calls over a fresh container makes
Keys return the distinct keys in first-insertion order, and a Set on a
key already present overwrites its value while leaving the key order
untouched. -/
theorem claim_C1 {K V : Type} [DecidableEq K] (isStr : Bool)
    (ops : List (K × V)) (m : OrderedMap K V) (k : K) (v : V) (hm : m.WF) :
    (OrderedMap.applyOps (OrderedMap.new isStr) ops).Keys =
      insertionOrder (ops.map Prod.fst) ∧
    (k ∈ m.Keys →
      (m.Set k v).Keys = m.Keys ∧ (m.Set k v).Get k = .ok v) := by
  constructor
  · rw [OrderedMap.keys_applyOps _ (OrderedMap.wf_new isStr),
      insertionOrder_eq_foldl]
    rfl
  · intro hk
    refine ⟨?_, OrderedMap.get_set_self m hm k v⟩
    rw [OrderedMap.keys_set m hm k v, if_pos hk]

theorem claim_C1_witness :
    wmi.WF ∧
    ((OrderedMap.applyOps (OrderedMap.new true)
        [("a", (1 : Int)), ("b", 2), ("a", 3)]).Keys =
      insertionOrder ([("a", (1 : Int)), ("b", 2), ("a", 3)].map Prod.fst) ∧
     ("a" ∈ wmi.Keys →
      (wmi.Set "a" 7).Keys = wmi.Keys ∧ (wmi.Set "a" 7).Get "a" = .ok 7)) :=
  ⟨by decide, claim_C1 true [("a", 1), ("b", 2), ("a", 3)] wmi "a" 7 (by decide)⟩

/-- C6: the structural invariant (stored size equals hash index count
equals linked sequence length; head and tail absent exactly when size
is zero; in this representation head is the first and tail the last
sequence element, so head having no predecessor and tail no successor
is intrinsic) holds after every operation applied to well-formed
containers: Set, Delete, Pop, Clear, Reverse, generic key sort,
SortAsc, SortDesc, Merge, Clone and decode, including failed
decodes. -/
theorem claim_C6 {K V : Type} [DecidableEq K]
    (m m2 : OrderedMap K V) (ms : OrderedMap String Json)
    (k : K) (v : V) (les : K → K → Bool) (toks : List JTok)
    (hm : m.WF) (hm2 : m2.WF) (hms : ms.WF) :
    m.Invariant ∧
    (m.Set k v).Invariant ∧
    (m.Delete k).Invariant ∧
    (m.Pop k).2.Invariant ∧
    (m.Clear).Invariant ∧
    (m.Reverse).Invariant ∧
    (m.sortKeys les).1.Invariant ∧
    (SortAsc ms).1.Invariant ∧
    (SortDesc ms).1.Invariant ∧
    (m.Merge m2).Invariant ∧
    (m.Clone).Invariant ∧
    (UnmarshalJSON ms toks).1.Invariant := by
  refine ⟨OrderedMap.wf_invariant m hm,
    OrderedMap.wf_invariant _ (OrderedMap.wf_set m hm k v),
    OrderedMap.wf_invariant _ (OrderedMap.wf_delete m hm k),
    OrderedMap.wf_invariant _ (OrderedMap.wf_pop m hm k),
    OrderedMap.wf_invariant _ (OrderedMap.wf_clear m),
    OrderedMap.wf_invariant _ (OrderedMap.wf_reverse m hm),
    OrderedMap.wf_invariant _ (OrderedMap.wf_sortKeys m hm les),
    OrderedMap.wf_invariant _ (OrderedMap.wf_sortKeys ms hms _),
    OrderedMap.wf_invariant _ (OrderedMap.wf_sortKeys ms hms _),
    OrderedMap.wf_invariant _ (OrderedMap.wf_merge m m2 hm),
    OrderedMap.wf_invariant _ (OrderedMap.wf_clone m),
    OrderedMap.wf_invariant _ (wf_unmarshal ms hms toks)⟩

theorem claim_C6_witness :
    wmi.WF ∧ wmi.WF ∧ wm.WF ∧
    (wmi.Invariant ∧
     (wmi.Set "c" 3).Invariant ∧
     (wmi.Delete "c").Invariant ∧
     (wmi.Pop "c").2.Invariant ∧
     (wmi.Clear).Invariant ∧
     (wmi.Reverse).Invariant ∧
     (wmi.sortKeys (fun a b => decide (a < b))).1.Invariant ∧
     (SortAsc wm).1.Invariant ∧
     (SortDesc wm).1.Invariant ∧
     (wmi.Merge wmi).Invariant ∧
     (wmi.Clone).Invariant ∧
     (UnmarshalJSON wm [JTok.objOpen, JTok.str "x", JTok.num 5]).1.Invariant) :=
  ⟨by decide, by decide, by decide,
    claim_C6 wmi wmi wm "c" 3 (fun a b => decide (a < b))
      [JTok.objOpen, JTok.str "x", JTok.num 5]
      (by decide) (by decide) (by decide)⟩

/-- C8: when the cached key-type flag says the key type is not string
(the flag is computed once at construction from the key type), the
key-sort operations, MarshalJSON and UnmarshalJSON all return the
key-must-be-string error before doing any work, leaving the container
untouched; when the flag says string, the check passes and none of
these operations ever produces that error. -/
theorem claim_C8 {K V : Type} [DecidableEq K] (m : OrderedMap K V)
    (ms : OrderedMap String Json) (les : K → K → Bool) (toks : List JTok) :
    (m.isKeyString = false →
      m.validateKey = some .keyMustBeString ∧
      m.sortKeys les = (m, some .keyMustBeString)) ∧
    (ms.isKeyString = false →
      SortAsc ms = (ms, some .keyMustBeString) ∧
      SortDesc ms = (ms, some .keyMustBeString) ∧
      MarshalJSON ms = .error .keyMustBeString ∧
      UnmarshalJSON ms toks = (ms, some .keyMustBeString)) ∧
    (m.isKeyString = true →
      m.validateKey = none ∧ (m.sortKeys les).2 = none) ∧
    (ms.isKeyString = true →
      (SortAsc ms).2 = none ∧ (SortDesc ms).2 = none ∧
      (∃ ts, MarshalJSON ms = .ok ts) ∧
      (UnmarshalJSON ms toks).2 ≠ some .keyMustBeString) := by
  refine ⟨fun hf => ⟨validateKey_of_false m hf, ?_⟩,
    fun hf => ⟨?_, ?_, ?_, unmarshal_flag_false ms hf toks⟩,
    fun ht => ⟨validateKey_of_true m ht, ?_⟩,
    fun ht => ⟨?_, ?_, ?_, ?_⟩⟩
  · simp [OrderedMap.sortKeys, validateKey_of_false m hf]
  · simp [SortAsc, OrderedMap.sortKeys, validateKey_of_false ms hf]
  · simp [SortDesc, OrderedMap.sortKeys, validateKey_of_false ms hf]
  · simp [MarshalJSON, validateKey_of_false ms hf]
  · simp [OrderedMap.sortKeys, validateKey_of_true m ht]
  · simp [SortAsc, OrderedMap.sortKeys, validateKey_of_true ms ht]
  · simp [SortDesc, OrderedMap.sortKeys, validateKey_of_true ms ht]
  · exact ⟨.objOpen :: fieldsTokens ms.entries ++ [.objClose],
      by simp [MarshalJSON, validateKey_of_true ms ht]⟩
  · simp only [UnmarshalJSON, validateKey_of_true ms ht]
    by_cases hn : toks = [JTok.null]
    · simp [hn]
    · cases toks with
      | nil => simp
      | cons t rest =>
        have hdm := decodeMembers_err_ne (rest.length + 1) ms.Clear rest
        rcases hrec : decodeMembers (rest.length + 1) ms.Clear rest with ⟨m1, ts, e⟩
        rw [hrec] at hdm
        cases e with
        | some err =>
          have herr : err ≠ OMError.keyMustBeString := by
            intro hc
            rw [hc] at hdm
            exact hdm rfl
          simp [hn, hrec, herr]
        | none =>
          cases ts with
          | nil => simp [hn, hrec]
          | cons t2 r2 => simp [hn, hrec]

theorem claim_C8_witness :
    ((OrderedMap.new false : OrderedMap Nat Int).validateKey =
        some .keyMustBeString ∧
      (OrderedMap.new false : OrderedMap Nat Int).sortKeys
        (fun a b => decide (a < b)) =
        (OrderedMap.new false, some .keyMustBeString)) ∧
    (SortAsc (OrderedMap.new false : OrderedMap String Json) =
        (OrderedMap.new false, some .keyMustBeString) ∧
      SortDesc (OrderedMap.new false : OrderedMap String Json) =
        (OrderedMap.new false, some .keyMustBeString) ∧
      MarshalJSON (OrderedMap.new false) = .error .keyMustBeString ∧
      UnmarshalJSON (OrderedMap.new false) [JTok.objOpen, JTok.objClose] =
        (OrderedMap.new false, some .keyMustBeString)) ∧
    ((OrderedMap.new true : OrderedMap Nat Int).validateKey = none ∧
      ((OrderedMap.new true : OrderedMap Nat Int).sortKeys
        (fun a b => decide (a < b))).2 = none) ∧
    ((SortAsc (OrderedMap.new true : OrderedMap String Json)).2 = none ∧
      (SortDesc (OrderedMap.new true : OrderedMap String Json)).2 = none ∧
      (∃ ts, MarshalJSON (OrderedMap.new true : OrderedMap String Json) = .ok ts) ∧
      (UnmarshalJSON (OrderedMap.new true : OrderedMap String Json)
        [JTok.objOpen, JTok.objClose]).2 ≠ some .keyMustBeString) :=
  ⟨(claim_C8 (OrderedMap.new false : OrderedMap Nat Int) (OrderedMap.new false)
      (fun a b => decide (a < b)) [JTok.objOpen, JTok.objClose]).1 rfl,
   (claim_C8 (OrderedMap.new false : OrderedMap Nat Int) (OrderedMap.new false)
      (fun a b => decide (a < b)) [JTok.objOpen, JTok.objClose]).2.1 rfl,
   (claim_C8 (OrderedMap.new true : OrderedMap Nat Int) (OrderedMap.new true)
      (fun a b => decide (a < b)) [JTok.objOpen, JTok.objClose]).2.2.1 rfl,
   (claim_C8 (OrderedMap.new true : OrderedMap Nat Int) (OrderedMap.new true)
      (fun a b => decide (a < b)) [JTok.objOpen, JTok.objClose]).2.2.2 rfl⟩

namespace OrderedMap

variable {K V : Type} [DecidableEq K]

/-- Key-level version of the IndexOf scan, for reasoning about
position preservation. -/
def kIdxAux : List K → K → Nat → Int
  | [], _, _ => -1
  | x :: rest, k, i => if x = k then (i : Int) else kIdxAux rest k (i + 1)

theorem indexOfAux_eq_kIdx (l : List (K × V)) (k : K) (i : Nat) :
    indexOfAux l k i = kIdxAux (l.map Prod.fst) k i := by
  induction l generalizing i with
  | nil => rfl
  | cons e rest ih =>
    by_cases he : e.1 = k
    · simp [indexOfAux, kIdxAux, he]
    · simp [indexOfAux, kIdxAux, he, ih]

theorem kIdxAux_append_left (l1 l2 : List K) (k : K) (i : Nat) (h : k ∈ l1) :
    kIdxAux (l1 ++ l2) k i = kIdxAux l1 k i := by
  induction l1 generalizing i with
  | nil => simp at h
  | cons x rest ih =>
    by_cases hx : x = k
    · simp [kIdxAux, hx]
    · have h2 : k ∈ rest := by
        rcases List.mem_cons.mp h with hc | hc
        · exact absurd hc.symm hx
        · exact hc
      simp [kIdxAux, hx, ih (i + 1) h2]

end OrderedMap

/-- Second concrete container for the Merge example: Set b:=20 then
c:=3. -/
def mex2 : OrderedMap String Int :=
  ((OrderedMap.new true).Set "b" 20).Set "c" 3

/-- C7: Merge applies Set for each entry of the other container in its
iteration order: keys already present keep their original position and
take the incoming value, keys new to the receiver are appended at the
end in the relative order of the other container; on the example
with receiver holding a:1, b:2 and argument holding b:20, c:3 the merge
yields keys a, b, c with b bound to 20 and c to 3. -/
theorem claim_C7 {K V : Type} [DecidableEq K] (m1 m2 : OrderedMap K V)
    (hm1 : m1.WF) (hm2 : m2.WF) :
    m1.Merge m2 = OrderedMap.applyOps m1 m2.entries ∧
    (m1.Merge m2).Keys =
      m1.Keys ++ m2.Keys.filter (fun k => decide (k ∉ m1.Keys)) ∧
    (∀ k, k ∈ m1.Keys → (m1.Merge m2).IndexOf k = m1.IndexOf k) ∧
    (∀ k, k ∈ m2.Keys → (m1.Merge m2).Get k = m2.Get k) ∧
    (wmi.Merge mex2).Keys = ["a", "b", "c"] ∧
    (wmi.Merge mex2).Get "b" = .ok 20 ∧
    (wmi.Merge mex2).Get "c" = .ok 3 := by
  have hkeys : (m1.Merge m2).Keys =
      (m2.entries.map Prod.fst).foldl OrderedMap.stepKey m1.Keys :=
    OrderedMap.keys_applyOps m1 hm1 m2.entries
  refine ⟨rfl, ?_, ?_, ?_, by decide, rfl, rfl⟩
  · rw [hkeys, OrderedMap.foldl_stepKey_filter _ hm2.2.2.2]
    rfl
  · intro k hk
    have hpre : ∃ suff, (m1.Merge m2).Keys = m1.Keys ++ suff := by
      rw [hkeys]
      exact OrderedMap.foldl_stepKey_prefix _ _
    obtain ⟨suff, hs⟩ := hpre
    rw [OrderedMap.IndexOf, OrderedMap.IndexOf,
      OrderedMap.indexOfAux_eq_kIdx, OrderedMap.indexOfAux_eq_kIdx]
    have hkm : ((m1.Merge m2).entries.map Prod.fst) = m1.Keys ++ suff := hs
    rw [hkm, OrderedMap.kIdxAux_append_left _ _ _ _ hk]
    rfl
  · intro k hk
    obtain ⟨e, hfil, hfind⟩ := OrderedMap.filter_key_nodup m2.entries hm2.2.2.2 k hk
    have hget := OrderedMap.get_applyOps m1 hm1 m2.entries k
    show (OrderedMap.applyOps m1 m2.entries).Get k = m2.Get k
    rw [hget, hfil]
    simp only [List.getLast?_singleton, Option.elim_some]
    rw [OrderedMap.Get, hfind]

theorem claim_C7_witness :
    wmi.WF ∧ mex2.WF ∧
    (wmi.Merge mex2 = OrderedMap.applyOps wmi mex2.entries ∧
     (wmi.Merge mex2).Keys =
       wmi.Keys ++ mex2.Keys.filter (fun k => decide (k ∉ wmi.Keys)) ∧
     (∀ k, k ∈ wmi.Keys → (wmi.Merge mex2).IndexOf k = wmi.IndexOf k) ∧
     (∀ k, k ∈ mex2.Keys → (wmi.Merge mex2).Get k = mex2.Get k) ∧
     (wmi.Merge mex2).Keys = ["a", "b", "c"] ∧
     (wmi.Merge mex2).Get "b" = .ok 20 ∧
     (wmi.Merge mex2).Get "c" = .ok 3) :=
  ⟨by decide, by decide, claim_C7 wmi mex2 (by decide) (by decide)⟩

/-- C2: encoding a well-formed string-keyed container and decoding the
result into any string-keyed container succeeds and reproduces exactly
the original key order and values. -/
theorem claim_C2 (m m2 : OrderedMap String Json) (hm : m.WF)
    (hflag : m.isKeyString = true) (hflag2 : m2.isKeyString = true) :
    ∃ toks, MarshalJSON m = .ok toks ∧
      (UnmarshalJSON m2 toks).2 = none ∧
      (UnmarshalJSON m2 toks).1.Keys = m.Keys ∧
      (UnmarshalJSON m2 toks).1.Values = m.Values := by
  have htok : (JTok.objOpen :: fieldsTokens m.entries ++ [JTok.objClose]) =
      tokensOf (.obj m.entries) := by simp [tokensOf]
  have hun : UnmarshalJSON m2 (tokensOf (.obj m.entries)) =
      (OrderedMap.applyOps m2.Clear m.entries, none) :=
    unmarshal_obj m2 hflag2 m.entries
  have hfresh : ∀ k ∈ m.entries.map Prod.fst, k ∉ (m2.Clear).index := by
    intro k _
    simp [OrderedMap.Clear]
  have hent : (OrderedMap.applyOps m2.Clear m.entries).entries = m.entries := by
    have h := OrderedMap.entries_applyOps_fresh m2.Clear m.entries hm.2.2.2 hfresh
    simpa [OrderedMap.Clear] using h
  refine ⟨tokensOf (.obj m.entries), ?_, ?_, ?_, ?_⟩
  · have hmar : MarshalJSON m =
        .ok (JTok.objOpen :: fieldsTokens m.entries ++ [JTok.objClose]) := by
      simp [MarshalJSON, validateKey_of_true m hflag]
    rw [hmar, htok]
  · rw [hun]
  · rw [hun, OrderedMap.Keys, OrderedMap.Keys, hent]
  · rw [hun, OrderedMap.Values, OrderedMap.Values, hent]

theorem claim_C2_witness :
    wm.WF ∧ wm.isKeyString = true ∧
    (OrderedMap.new true : OrderedMap String Json).isKeyString = true ∧
    (∃ toks, MarshalJSON wm = .ok toks ∧
      (UnmarshalJSON (OrderedMap.new true) toks).2 = none ∧
      (UnmarshalJSON (OrderedMap.new true) toks).1.Keys = wm.Keys ∧
      (UnmarshalJSON (OrderedMap.new true) toks).1.Values = wm.Values) :=
  ⟨by decide, rfl, rfl, claim_C2 wm (OrderedMap.new true) (by decide) rfl rfl⟩

/-- C10: decoding a well-formed object input in which a member name
repeats succeeds; the repeated key is listed once at the position of
its first occurrence, the key list has no duplicates so Len counts it
once, and its value is the one of its last occurrence, because every
decoded pair is applied through Set. -/
theorem claim_C10 (m : OrderedMap String Json)
    (fields : List (String × Json)) (k : String)
    (hflag : m.isKeyString = true)
    (hdup : 1 < (fields.map Prod.fst).count k) :
    (UnmarshalJSON m (tokensOf (.obj fields))).2 = none ∧
    (UnmarshalJSON m (tokensOf (.obj fields))).1.Keys =
      insertionOrder (fields.map Prod.fst) ∧
    ((UnmarshalJSON m (tokensOf (.obj fields))).1.Keys).count k = 1 ∧
    (UnmarshalJSON m (tokensOf (.obj fields))).1.Len =
      (insertionOrder (fields.map Prod.fst)).length ∧
    (∀ p, (fields.filter (fun e => decide (e.1 = k))).getLast? = some p →
      (UnmarshalJSON m (tokensOf (.obj fields))).1.Get k = .ok p.2) := by
  have hun := unmarshal_obj m hflag fields
  have hwfc := OrderedMap.wf_clear m
  have hkeys : (OrderedMap.applyOps m.Clear fields).Keys =
      insertionOrder (fields.map Prod.fst) := by
    rw [OrderedMap.keys_applyOps m.Clear hwfc fields, insertionOrder_eq_foldl]
    rfl
  have hmem : k ∈ fields.map Prod.fst := by
    by_contra hc
    rw [List.count_eq_zero_of_not_mem hc] at hdup
    omega
  have hnodup : (OrderedMap.applyOps m.Clear fields).Keys.Nodup := by
    rw [hkeys, insertionOrder_eq_foldl]
    exact OrderedMap.foldl_stepKey_nodup _ _ List.nodup_nil
  have hkmem : k ∈ (OrderedMap.applyOps m.Clear fields).Keys := by
    rw [hkeys, insertionOrder_eq_foldl]
    exact (OrderedMap.mem_foldl_stepKey _ _ _).mpr (Or.inr hmem)
  refine ⟨by rw [hun], by rw [hun]; exact hkeys, ?_, ?_, ?_⟩
  · rw [hun]
    exact List.count_eq_one_of_mem hnodup hkmem
  · rw [hun]
    have hwfa := OrderedMap.wf_applyOps m.Clear hwfc fields
    have h2 := hwfa.2.1
    have h3 : (OrderedMap.applyOps m.Clear fields).Keys.length =
        (OrderedMap.applyOps m.Clear fields).entries.length := by
      simp [OrderedMap.Keys]
    rw [OrderedMap.Len, h2, ← h3, hkeys]
  · intro p hp
    rw [hun]
    have hget := OrderedMap.get_applyOps m.Clear hwfc fields k
    rw [hget, hp]
    rfl

theorem claim_C10_witness :
    (OrderedMap.new true : OrderedMap String Json).isKeyString = true ∧
    1 < ([("x", Json.num 1), ("y", Json.num 2),
          ("x", Json.num 3)].map Prod.fst).count "x" ∧
    ((UnmarshalJSON (OrderedMap.new true)
        (tokensOf (.obj [("x", .num 1), ("y", .num 2), ("x", .num 3)]))).2 = none ∧
     (UnmarshalJSON (OrderedMap.new true)
        (tokensOf (.obj [("x", .num 1), ("y", .num 2), ("x", .num 3)]))).1.Keys =
       insertionOrder ([("x", Json.num 1), ("y", Json.num 2),
          ("x", Json.num 3)].map Prod.fst) ∧
     ((UnmarshalJSON (OrderedMap.new true)
        (tokensOf (.obj [("x", .num 1), ("y", .num 2), ("x", .num 3)]))).1.Keys).count "x" = 1 ∧
     (UnmarshalJSON (OrderedMap.new true)
        (tokensOf (.obj [("x", .num 1), ("y", .num 2), ("x", .num 3)]))).1.Len =
       (insertionOrder ([("x", Json.num 1), ("y", Json.num 2),
          ("x", Json.num 3)].map Prod.fst)).length ∧
     (∀ p, ([("x", Json.num 1), ("y", Json.num 2),
          ("x", Json.num 3)].filter (fun e => decide (e.1 = "x"))).getLast? = some p →
      (UnmarshalJSON (OrderedMap.new true)
        (tokensOf (.obj [("x", .num 1), ("y", .num 2), ("x", .num 3)]))).1.Get "x" =
        .ok p.2)) :=
  ⟨rfl, by decide,
   claim_C10 (OrderedMap.new true) [("x", .num 1), ("y", .num 2), ("x", .num 3)]
     "x" rfl (by decide)⟩

/-- C3 as stated is false: on the input with tokens of an object whose
second member is truncated, UnmarshalJSON fails after the key-type
validation yet leaves one decoded pair in the container, not zero. -/
theorem claim_C3_counterexample :
    ((UnmarshalJSON (OrderedMap.new true)
        [JTok.objOpen, JTok.str "a", JTok.num 1, JTok.str "b"]).2).isSome = true ∧
    (UnmarshalJSON (OrderedMap.new true)
        [JTok.objOpen, JTok.str "a", JTok.num 1, JTok.str "b"]).1.Len = 1 ∧
    (UnmarshalJSON (OrderedMap.new true)
        [JTok.objOpen, JTok.str "a", JTok.num 1, JTok.str "b"]).1.Keys = ["a"] :=
  ⟨rfl, rfl, rfl⟩

/-- C3 amended: whenever the key-type validation passes, the container
UnmarshalJSON leaves behind, on success or failure, holds exactly the
pairs decoded before the point of failure applied to the cleared
container: prior contents are never retained, but after a mid-stream
failure the container can be partially populated, not empty. -/
theorem claim_C3_amended (m : OrderedMap String Json) (data : List JTok)
    (hflag : m.isKeyString = true) :
    (UnmarshalJSON m data).1 =
      OrderedMap.applyOps m.Clear
        (decodedPairs (data.tail.length + 1) data.tail) := by
  have hval := validateKey_of_true m hflag
  cases data with
  | nil => simp [UnmarshalJSON, hval, decodedPairs, OrderedMap.applyOps]
  | cons t rest =>
    by_cases hn : (t :: rest) = [JTok.null]
    · injection hn with h1 h2
      subst h1
      subst h2
      simp [UnmarshalJSON, hval, decodedPairs, OrderedMap.applyOps]
    · have hfst := decodeMembers_fst (rest.length + 1) m.Clear rest
      simp only [UnmarshalJSON, hval]
      rw [if_neg hn]
      simp only [List.tail_cons]
      rcases hrec : decodeMembers (rest.length + 1) m.Clear rest with ⟨m1, ts, e⟩
      rw [hrec] at hfst
      cases e with
      | some err => simpa using hfst
      | none =>
        cases ts with
        | nil => simpa using hfst
        | cons t2 r2 => simpa using hfst

theorem claim_C3_amended_witness :
    (OrderedMap.new true : OrderedMap String Json).isKeyString = true ∧
    (UnmarshalJSON (OrderedMap.new true)
        [JTok.objOpen, JTok.str "a", JTok.num 1, JTok.str "b"]).1 =
      OrderedMap.applyOps (OrderedMap.new true : OrderedMap String Json).Clear
        (decodedPairs ([JTok.str "a", JTok.num 1, JTok.str "b"].length + 1)
          [JTok.str "a", JTok.num 1, JTok.str "b"]) :=
  ⟨rfl, claim_C3_amended (OrderedMap.new true)
    [JTok.objOpen, JTok.str "a", JTok.num 1, JTok.str "b"] rfl⟩

/-- C4 as stated is false: the input consisting of an opening and
closing array delimiter is not the null literal and does not begin with
the opening object delimiter, yet UnmarshalJSON succeeds, because the
code only checks that some opening token and some closing token can be
read. -/
theorem claim_C4_counterexample :
    ([JTok.arrOpen, JTok.arrClose] ≠ [JTok.null]) ∧
    ([JTok.arrOpen, JTok.arrClose].head? ≠ some JTok.objOpen) ∧
    (UnmarshalJSON (OrderedMap.new true) [JTok.arrOpen, JTok.arrClose]).2 =
      none :=
  ⟨by decide, by decide, rfl⟩

/-- C4 amended: for a well-formed non-null input value, UnmarshalJSON
succeeds exactly when the input is an object, or an array whose
elements alternate string keys and decodable values (the empty array
included), which the decoder accepts as if it were an object; any other
well-formed value is rejected, and an object stream missing its closing
delimiter is rejected with the closing-token error. -/
theorem claim_C4_amended (m : OrderedMap String Json) (j : Json)
    (fields : List (String × Json)) (hflag : m.isKeyString = true)
    (hnull : j ≠ .null) :
    ((UnmarshalJSON m (tokensOf j)).2 = none ↔
      (∃ fs, j = .obj fs) ∨ (∃ es ps, j = .arr es ∧ altPairs es = some ps)) ∧
    (UnmarshalJSON m (JTok.objOpen :: fieldsTokens fields)).2 =
      some .readCloseTok := by
  refine ⟨?_, by rw [unmarshal_missing_close m hflag fields]⟩
  cases j with
  | null => exact absurd rfl hnull
  | bool b =>
    rw [unmarshal_scalar m hflag (.bool b) rfl (by simp)]
    simp
  | num n =>
    rw [unmarshal_scalar m hflag (.num n) rfl (by simp)]
    simp
  | str s =>
    rw [unmarshal_scalar m hflag (.str s) rfl (by simp)]
    simp
  | obj fs =>
    rw [unmarshal_obj m hflag fs]
    simp
  | arr es =>
    cases har : altPairs es with
    | some ps =>
      rw [unmarshal_arr_some m hflag es ps har]
      constructor
      · intro _
        exact Or.inr ⟨es, ps, rfl, har⟩
      · intro _
        rfl
    | none =>
      have hne := unmarshal_arr_none m hflag es har
      constructor
      · intro hc
        exact absurd hc hne
      · rintro (⟨fs, hfs⟩ | ⟨es2, ps, hes, hps⟩)
        · simp at hfs
        · injection hes with h1
          subst h1
          rw [har] at hps
          cases hps

theorem claim_C4_amended_witness :
    (OrderedMap.new true : OrderedMap String Json).isKeyString = true ∧
    Json.num 5 ≠ Json.null ∧
    (((UnmarshalJSON (OrderedMap.new true) (tokensOf (.num 5))).2 = none ↔
      (∃ fs, Json.num 5 = .obj fs) ∨
      (∃ es ps, Json.num 5 = .arr es ∧ altPairs es = some ps)) ∧
     (UnmarshalJSON (OrderedMap.new true)
        (JTok.objOpen :: fieldsTokens [("a", Json.num 1)])).2 =
       some .readCloseTok) :=
  ⟨rfl, by simp,
   claim_C4_amended (OrderedMap.new true) (.num 5) [("a", .num 1)] rfl (by simp)⟩
